import Mathlib

/-!
# proxylab: the object cache and the request pipeline of `proxy.c`

A shallow embedding of the cache (`cache_init`, `cache_find`, `cache_evict`,
`cache_cache`), of `parse_uri`, `build_header`, `clienterror` and `doit`,
followed by theorems about them.

Conventions of the embedding.

* A C string is the `List Char` of its characters before the terminating NUL.
* `cache_line cache[COUNT]` is a function `Fin COUNT → cache_line`; an assignment
  to a field of `cache[i]` is a `Function.update` at `i`.
* `int` fields are `Int`.  The only arithmetic on them is `++`/`--` by one and
  comparison, and in every state reachable from `cache_init` the values stay
  within `0 .. COUNT`, so no wrap-around is involved.
* Semaphores are natural-number counters.  `P` on a counter that is `0` does
  not return in a single-threaded run: the operations are `Option`-valued, and
  `none` stands for a call that blocks for ever.
* A `for (i = 0; i < COUNT; i++)` loop is a function of the number of
  iterations left and of `i`; it is always started with `COUNT` and `0`.
* The output buffers of `parse_uri` are parameters (their contents on entry)
  and results (their contents on return); a pointer into a string is an offset.
* A buffered connection (`rio_t`) is the list of the successive results of
  `Rio_readlineb` on it; the end of the list, or an empty result, is end of
  input.  A result of `Rio_readlineb` is the bytes of a line, NUL bytes among
  them if the peer sent any; the string functions see of it the C string,
  `c_string`, and `memcpy` and `Rio_writen` with a byte count see all of it.
  `Open_clientfd` is a parameter of `doit`.  What `doit` writes, dials
  and closes, and its calls of `cache_find` and `cache_cache`, are returned as a
  list of events; reads and writes are taken to succeed and strings to fit
  their buffers.
-/

namespace Proxy

/-! ## Constants and data model (proxy.c, lines 18-38) -/

/-- The max size of each cache line. -/
abbrev MAX_OBJECT_SIZE : Nat := 102500

/-- Total number of cache lines. -/
abbrev COUNT : Nat := 10

/-- The cache struct of proxy.c. -/
structure cache_line where
  cache_word : List Char
  cache_url : List Char
  timetag : Int
  empty : Int
  readcnt : Int
  mutex_wt : Nat
  mutex_rdcnt : Nat
  mutex_time : Nat
deriving DecidableEq

/-- The global array `cache_line cache[COUNT]`. -/
abbrev Cache := Fin COUNT → cache_line

/-! ## Semaphores -/

/-- Semaphore wait: decrements a positive counter, blocks (`none`) on zero. -/
def P (s : Nat) : Option Nat := if 0 < s then some (s - 1) else none

/-- Semaphore post. -/
def V (s : Nat) : Nat := s + 1

/-- The reader entry protocol, written out in `cache_find` (lines 79-83) and in
`cache_evict` (lines 117-121):
`P(&mutex_rdcnt); readcnt++; if (readcnt == 1) P(&mutex_wt); V(&mutex_rdcnt);`. -/
def rd_enter (c : cache_line) : Option cache_line :=
  match P c.mutex_rdcnt with
  | none => none
  | some r =>
    let c1 : cache_line := { c with mutex_rdcnt := r, readcnt := c.readcnt + 1 }
    if c1.readcnt = 1 then
      match P c1.mutex_wt with
      | none => none
      | some w => some { c1 with mutex_wt := w, mutex_rdcnt := V c1.mutex_rdcnt }
    else some { c1 with mutex_rdcnt := V c1.mutex_rdcnt }

/-- The reader exit protocol (lines 88-92, 96-100, 126-130, 142-146):
`P(&mutex_rdcnt); readcnt--; if (readcnt == 0) V(&mutex_wt); V(&mutex_rdcnt);`. -/
def rd_exit (c : cache_line) : Option cache_line :=
  match P c.mutex_rdcnt with
  | none => none
  | some r =>
    let c1 : cache_line := { c with mutex_rdcnt := r, readcnt := c.readcnt - 1 }
    if c1.readcnt = 0 then
      some { c1 with mutex_wt := V c1.mutex_wt, mutex_rdcnt := V c1.mutex_rdcnt }
    else some { c1 with mutex_rdcnt := V c1.mutex_rdcnt }

/-! ## cache_init (lines 57-68) -/

/-- Initialise the cache: every line gets `timetag = 0`, `empty = 1`, fresh
semaphores and `readcnt = 0`; `cache_word` and `cache_url` are not written. -/
def cache_init (cache : Cache) : Cache :=
  fun i => { cache i with
    timetag := 0, empty := 1, mutex_wt := 1, mutex_rdcnt := 1, mutex_time := 1,
    readcnt := 0 }

/-! ## cache_find (lines 74-103) -/

/-- The loop of `cache_find`; the result is the returned `int` and the cache. -/
def cache_find_loop (url : List Char) : Nat → Nat → Cache → Option (Int × Cache)
  | 0, _, cache => some (-1, cache)
  | n + 1, i, cache =>
    if h : i < COUNT then
      match rd_enter (cache ⟨i, h⟩) with
      | none => none
      | some c =>
        let cache1 := Function.update cache ⟨i, h⟩ c
        if (cache1 ⟨i, h⟩).empty = 0 ∧ url = (cache1 ⟨i, h⟩).cache_url then
          match rd_exit (cache1 ⟨i, h⟩) with
          | none => none
          | some c2 => some ((i : Int), Function.update cache1 ⟨i, h⟩ c2)
        else
          match rd_exit (cache1 ⟨i, h⟩) with
          | none => none
          | some c2 => cache_find_loop url n (i + 1) (Function.update cache1 ⟨i, h⟩ c2)
    else some (-1, cache)

/-- Find whether the url is in the cache; the index if so, otherwise -1. -/
def cache_find (cache : Cache) (url : List Char) : Option (Int × Cache) :=
  cache_find_loop url COUNT 0 cache

/-! ## cache_evict (lines 110-149) -/

/-- The loop of `cache_evict`, with the locals `min` and `index`. -/
def cache_evict_loop : Nat → Nat → Int → Fin COUNT → Cache → Option (Fin COUNT × Cache)
  | 0, _, _, index, cache => some (index, cache)
  | n + 1, i, min, index, cache =>
    if h : i < COUNT then
      match rd_enter (cache ⟨i, h⟩) with
      | none => none
      | some c =>
        let cache1 := Function.update cache ⟨i, h⟩ c
        if (cache1 ⟨i, h⟩).empty = 1 then
          match rd_exit (cache1 ⟨i, h⟩) with
          | none => none
          | some c2 => some (⟨i, h⟩, Function.update cache1 ⟨i, h⟩ c2)
        else
          let min1 := if (cache1 ⟨i, h⟩).timetag < min then (cache1 ⟨i, h⟩).timetag else min
          let index1 := if (cache1 ⟨i, h⟩).timetag < min then ⟨i, h⟩ else index
          match rd_exit (cache1 ⟨i, h⟩) with
          | none => none
          | some c2 =>
            cache_evict_loop n (i + 1) min1 index1 (Function.update cache1 ⟨i, h⟩ c2)
    else some (index, cache)

/-- Find which line should be evicted: `int min = COUNT, index = 0;` then the loop. -/
def cache_evict (cache : Cache) : Option (Fin COUNT × Cache) :=
  cache_evict_loop COUNT 0 (COUNT : Int) ⟨0, by decide⟩ cache

/-! ## cache_cache (lines 156-180) -/

/-- The body of the timetag loop for a line other than the victim (lines 173-176):
`P(&mutex_time); if (!empty) timetag--; V(&mutex_time);`. -/
def age_line (c : cache_line) : Option cache_line :=
  match P c.mutex_time with
  | none => none
  | some t =>
    let c1 : cache_line := { c with mutex_time := t }
    let c2 : cache_line := if c1.empty = 0 then { c1 with timetag := c1.timetag - 1 } else c1
    some { c2 with mutex_time := V c2.mutex_time }

/-- The loop of `cache_cache` that updates the timetag of the other lines. -/
def cache_cache_loop (evict : Fin COUNT) : Nat → Nat → Cache → Option Cache
  | 0, _, cache => some cache
  | n + 1, i, cache =>
    if h : i < COUNT then
      if (⟨i, h⟩ : Fin COUNT) = evict then cache_cache_loop evict n (i + 1) cache
      else
        match age_line (cache ⟨i, h⟩) with
        | none => none
        | some c => cache_cache_loop evict n (i + 1) (Function.update cache ⟨i, h⟩ c)
    else some cache

/-- Save the uri and the response in the cache.  `memcpy` overwrites all the
`MAX_OBJECT_SIZE` bytes of `cache_word` with the first `MAX_OBJECT_SIZE` bytes
of `buf`; `strcpy` stores the string `uri`, which is taken to fit `cache_url`. -/
def cache_cache (cache : Cache) (uri buf : List Char) : Option Cache :=
  match cache_evict cache with
  | none => none
  | some (evict, cache0) =>
    match P (cache0 evict).mutex_wt with
    | none => none
    | some w =>
      let cache1 := Function.update cache0 evict { cache0 evict with mutex_wt := w }
      let cache2 := Function.update cache1 evict
        { cache1 evict with
          cache_word := buf.take MAX_OBJECT_SIZE, cache_url := uri,
          empty := 0, timetag := (COUNT : Int) }
      match cache_cache_loop evict COUNT 0 cache2 with
      | none => none
      | some cache3 =>
        some (Function.update cache3 evict
          { cache3 evict with mutex_wt := V (cache3 evict).mutex_wt })

/-! ## C library functions used by parse_uri -/

/-- The function `isspace` of the C locale: space, `\t`, `\n`, `\v`, `\f`, `\r`. -/
def isspace (c : Char) : Bool := c.toNat = 32 || (9 ≤ c.toNat && c.toNat ≤ 13)

/-- The function `isdigit`: '0' .. '9'. -/
def isdigit (c : Char) : Bool := 48 ≤ c.toNat && c.toNat ≤ 57

/-- The call `strstr(s, needle)`: the offset of the first occurrence of `needle`
in `s`, `none` for a NULL result. -/
def strstr : List Char → List Char → Option Nat
  | [], needle => if needle = [] then some 0 else none
  | c :: s, needle =>
    if needle.isPrefixOf (c :: s) then some 0
    else (strstr s needle).map (fun pos => pos + 1)

/-- Value of a run of decimal digits, read left to right onto `acc`. -/
def digits_value (acc : Nat) : List Char → Nat
  | [] => acc
  | c :: cs => digits_value (acc * 10 + (c.toNat - 48)) cs

/-- Storing a converted number into a 32-bit `int`.  A number that is out of
range is outside what the C standard defines; it is truncated here. -/
def to_int (x : Int) : Int := (x + 2147483648) % 4294967296 - 2147483648

/-- The conversion `%d` of `sscanf`: skip white space, read an optional sign and
a non-empty run of decimal digits.  The result is the converted `int` and the
unread input; `none` when nothing is converted. -/
def scan_d (s : List Char) : Option (Int × List Char) :=
  let s1 := s.dropWhile isspace
  let neg : Bool := match s1 with
    | c :: _ => c = '-'
    | [] => false
  let s2 := match s1 with
    | c :: t => if c = '-' ∨ c = '+' then t else s1
    | [] => s1
  let ds := s2.takeWhile isdigit
  if ds = [] then none
  else
    let v : Int := (digits_value 0 ds : Nat)
    some (to_int (if neg then -v else v), s2.dropWhile isdigit)

/-- The conversion `%s` of `sscanf`: skip white space, read the maximal run of
characters that are not white space.  The result is the token and the unread
input; `none` when the input ends before a token starts. -/
def scan_s (s : List Char) : Option (List Char × List Char) :=
  let s1 := s.dropWhile isspace
  let w := s1.takeWhile (fun c => !isspace c)
  if w = [] then none else some (w, s1.dropWhile (fun c => !isspace c))

/-- The call `sscanf(str, "%d%s", port, filename)`: `*port` is assigned when `%d`
converts, and `filename` when `%s` converts after it; what is not assigned
keeps its value. -/
def sscanf_d_s (str : List Char) (port : Int) (filename : List Char) : Int × List Char :=
  match scan_d str with
  | none => (port, filename)
  | some (v, rest) =>
    match scan_s rest with
    | none => (v, filename)
    | some (w, _) => (v, w)

/-! ## parse_uri (lines 327-358) and the cache key of doit (lines 258-261) -/

/-- The scheme prefix "http://". -/
def http_scheme : List Char := ['h', 't', 't', 'p', ':', '/', '/']

/-- The host "example.com". -/
def example_host : List Char := "example.com".toList

/-- The port "8080". -/
def example_port : List Char := "8080".toList

/-- The path "/index.html". -/
def example_path : List Char := "/index.html".toList

/-- The function `parse_uri`.  `hostname` and `filename` are the contents of the
output buffers on entry; the result is (hostname, filename, port) on return.
`*pos = 0; strcpy(hostname, uri); *pos = c;` copies the part of `uri` before
`pos`. -/
def parse_uri (uri hostname filename : List Char) : List Char × List Char × Int :=
  let port : Int := 80
  let uri := match strstr uri ['/', '/'] with
    | some pos => uri.drop (pos + 2)
    | none => uri
  let hf : List Char × List Char := match strstr uri ['/'] with
    | some pos => (uri.take pos, uri.drop pos)
    | none => (hostname, filename)
  match strstr uri [':'] with
  | none => (uri, [], port)
  | some pos =>
    let pf := sscanf_d_s (uri.drop (pos + 1)) port hf.2
    (uri.take pos, pf.2, pf.1)

/-- The cache key of `doit`: `parse_uri(uri, hostname, filename, &port);
strcpy(c_uri, hostname); strcat(c_uri, filename);`. -/
def doit_c_uri (uri hostname filename : List Char) : List Char :=
  let r := parse_uri uri hostname filename
  r.1 ++ r.2.1

/-! ## Predicates and sample data used in the statements -/

/-- No thread is inside a critical section of this line. -/
def line_unlocked (c : cache_line) : Prop :=
  c.readcnt = 0 ∧ c.mutex_wt = 1 ∧ c.mutex_rdcnt = 1 ∧ c.mutex_time = 1

instance (c : cache_line) : Decidable (line_unlocked c) := by
  unfold line_unlocked; infer_instance

/-- No lock of the cache is held: the state between two serial operations. -/
def unlocked (cache : Cache) : Prop := ∀ i : Fin COUNT, line_unlocked (cache i)

instance (cache : Cache) : Decidable (unlocked cache) := by
  unfold unlocked; infer_instance

/-- Line `i` is a hit for `url`: the test of line 86. -/
def hit (cache : Cache) (url : List Char) (i : Fin COUNT) : Prop :=
  (cache i).empty = 0 ∧ url = (cache i).cache_url

instance (cache : Cache) (url : List Char) (i : Fin COUNT) : Decidable (hit cache url i) := by
  unfold hit; infer_instance

/-- The effect of lines 174-175 on the data of a line: `if (!empty) timetag--`. -/
def aged (c : cache_line) : cache_line :=
  { c with timetag := if c.empty = 0 then c.timetag - 1 else c.timetag }

/-- The cache after an admission that wrote line `v`: line `v` holds the new
object with timetag `COUNT`, every other line is aged. -/
def admitted (cache : Cache) (v : Fin COUNT) (uri buf : List Char) : Cache :=
  fun j =>
    if j = v then
      { cache v with
        cache_word := buf.take MAX_OBJECT_SIZE, cache_url := uri,
        empty := 0, timetag := (COUNT : Int) }
    else aged (cache j)

/-- A cache with lines 0 and 1 in use and the other lines empty. -/
def cache_two_used : Cache :=
  fun i => { cache_word := [], cache_url := ['a'], timetag := if i.val < 2 then 9 else 0,
             empty := if i.val < 2 then 0 else 1,
             readcnt := 0, mutex_wt := 1, mutex_rdcnt := 1, mutex_time := 1 }

/-- A full cache holding ten distinct one-letter keys, line `i` with timetag `i + 1`. -/
def cache_full_example : Cache :=
  fun i => { cache_word := [], cache_url := [Char.ofNat (97 + i.val)], timetag := (i.val : Int) + 1,
             empty := 0, readcnt := 0, mutex_wt := 1, mutex_rdcnt := 1, mutex_time := 1 }

/-- The keys of the non-empty lines. -/
def cached_keys (cache : Cache) : Finset (List Char) :=
  (Finset.univ.filter (fun j : Fin COUNT => (cache j).empty = 0)).image
    (fun j => (cache j).cache_url)

/-- Serial admissions: `cache_cache` on each (key, buffer) pair in turn. -/
def cache_cache_all : Cache → List (List Char × List Char) → Option Cache
  | cache, [] => some cache
  | cache, (uri, buf) :: rest =>
    match cache_cache cache uri buf with
    | none => none
    | some cache1 => cache_cache_all cache1 rest

/-- Position, in a history of `m` admissions, of the admission that last wrote
line `j` when the lines are written in the order 0, 1, .., COUNT-1, 0, 1, .. -/
def last_write (m j : Nat) : Nat := m - 1 - (m - 1 - j) % COUNT

/-- The state of the cache after the serial admissions `hist` from an
initialised cache: no lock held; line `j` is in use iff `j < hist.length`; a
line in use holds the object of the admission that last wrote it and its
timetag is `COUNT` minus the number of admissions since; an unused line has
`empty = 1` and timetag 0. -/
def round_robin (hist : List (List Char × List Char)) (cache : Cache) : Prop :=
  unlocked cache ∧
  ∀ j : Fin COUNT,
    (j.val < hist.length →
      (cache j).empty = 0 ∧
      (cache j).timetag = (COUNT : Int) - (((hist.length - 1 - j.val) % COUNT : Nat) : Int) ∧
      ∃ kb, hist[last_write hist.length j.val]? = some kb ∧
        (cache j).cache_url = kb.1 ∧ (cache j).cache_word = kb.2.take MAX_OBJECT_SIZE) ∧
    (hist.length ≤ j.val → (cache j).empty = 1 ∧ (cache j).timetag = 0)

/-- The cache states reachable from `cache_init` by serial calls of `cache_cache`
and `cache_find`. -/
inductive reachable : Cache → Prop
  | init (c0 : Cache) : reachable (cache_init c0)
  | store {s s1 : Cache} (uri buf : List Char) :
      reachable s → cache_cache s uri buf = some s1 → reachable s1
  | find {s s1 : Cache} (url : List Char) (r : Int) :
      reachable s → cache_find s url = some (r, s1) → reachable s1

/-- An uninitialised cache, all bytes zero. -/
def cache_blank : Cache :=
  fun _ => { cache_word := [], cache_url := [], timetag := 0, empty := 0, readcnt := 0,
             mutex_wt := 0, mutex_rdcnt := 0, mutex_time := 0 }

/-- Ten admissions with the keys "0" .. "9". -/
def ten_others : List (List Char × List Char) :=
  (List.range 10).map (fun i => ([Char.ofNat (48 + i)], ['o']))

/-- Eleven admissions with the keys "a" .. "k". -/
def eleven_keys : List (List Char × List Char) :=
  (List.range 11).map (fun i => ([Char.ofNat (97 + i)], [Char.ofNat (65 + i)]))

/-! ## build_header (lines 362-386) -/

/-- The line terminator CR LF. -/
def crlf : List Char := [Char.ofNat 13, Char.ofNat 10]

/-- The constant `user_agent_header` (line 22). -/
def user_agent_header : List Char :=
  "User-Agent: Mozilla/5.0 (X11; Linux x86_64; rv:10.0.3) Gecko/20120305 Firefox/10.0.3".toList
    ++ crlf

/-- The constant `conn_header` (line 23). -/
def conn_header : List Char := "Connection: close".toList ++ crlf

/-- The constant `prox_header` (line 24). -/
def prox_header : List Char := "Proxy-Connection: close".toList ++ crlf

/-- The needle "Host:" of line 372. -/
def host_field : List Char := "Host:".toList

/-- The needle "User-Agent:" of line 374. -/
def user_agent_field : List Char := "User-Agent:".toList

/-- The needle "Connection:" of line 376. -/
def connection_field : List Char := "Connection:".toList

/-- The needle "Proxy-Connection:" of line 378. -/
def proxy_connection_field : List Char := "Proxy-Connection:".toList

/-- The C string held in a buffer: the bytes before the first NUL byte.  This is
what `strcmp`, `strstr`, `sscanf` and the conversion `%s` of `sprintf` see of a
buffer that `Rio_readlineb` filled: it stores the bytes of the line, of which
any may be NUL, and a NUL after them. -/
def c_string (buf : List Char) : List Char := buf.takeWhile (fun c => c ≠ Char.ofNat 0)

/-- The loop of `build_header` (lines 368-382).  The first argument holds the
successive results of `Rio_readlineb` on the client connection; the end of the
list, or an empty result, is a return value of 0.  The return value counts all
the bytes of the line; `strcmp`, `strstr` and `sprintf` work on the C string in
`buf`. -/
def build_header_loop : List (List Char) → List Char → List Char
  | [], reqhdr => reqhdr
  | buf :: rio, reqhdr =>
    if buf.length > 0 then
      if c_string buf = crlf then reqhdr
      else if (strstr (c_string buf) host_field).isSome then build_header_loop rio reqhdr
      else if (strstr (c_string buf) user_agent_field).isSome then build_header_loop rio reqhdr
      else if (strstr (c_string buf) connection_field).isSome then build_header_loop rio reqhdr
      else if (strstr (c_string buf) proxy_connection_field).isSome then
        build_header_loop rio reqhdr
      else build_header_loop rio (reqhdr ++ c_string buf)
    else reqhdr

/-- The function `build_header`: the result is the string left in `reqhdr`, which
is taken to fit the buffer. -/
def build_header (rio : List (List Char)) (hostname filename port : List Char) : List Char :=
  let reqhdr := "GET ".toList ++ filename ++ " HTTP/1.0".toList ++ crlf
  let reqhdr := build_header_loop rio reqhdr
  let reqhdr := reqhdr ++ "Host: ".toList ++ hostname ++ [':'] ++ port ++ crlf
  reqhdr ++ user_agent_header ++ conn_header ++ prox_header ++ crlf

/-- The lines of a buffer, each with its terminator: the buffer is cut after
every LF; `cur` is the line read so far. -/
def lines_from : List Char → List Char → List (List Char)
  | [], cur => if cur = [] then [] else [cur]
  | c :: cs, cur =>
    if c = Char.ofNat 10 then (cur ++ [c]) :: lines_from cs []
    else lines_from cs (cur ++ [c])

/-- The lines of a buffer. -/
def lines_of (s : List Char) : List (List Char) := lines_from s []

/-- A line as a header line is read: one LF, at its end. -/
def is_line (l : List Char) : Prop :=
  ∃ body : List Char, l = body ++ [Char.ofNat 10] ∧ Char.ofNat 10 ∉ body

/-- The client header lines that `build_header` keeps, in the words of the
spec: of the lines before the blank line (or the end of input), each taken as
the C string it is, those in which none of the four needles occurs. -/
def retained_lines (rio : List (List Char)) : List (List Char) :=
  ((rio.takeWhile (fun buf => decide (buf ≠ []) && decide (c_string buf ≠ crlf))).map
    c_string).filter
    (fun l => (strstr l host_field).isNone && (strstr l user_agent_field).isNone &&
      (strstr l connection_field).isNone && (strstr l proxy_connection_field).isNone)

/-! ## clienterror (lines 388-408) and doit (lines 237-318) -/

/-- What `doit` does to the outside and which cache functions it calls, in order:
`Rio_writen(fd, bytes, n)`, `cache_find(url)`, `Open_clientfd(hostname, port)`,
`cache_cache(uri, _)` and `Close(fd)`. -/
inductive io_event
  | written (fd : Int) (bytes : List Char)
  | lookup (url : List Char)
  | dial (hostname port : List Char)
  | stored (uri : List Char)
  | closed (fd : Int)
deriving DecidableEq

/-- The conversion `%d` of `sprintf`. -/
def sprintf_d (n : Int) : List Char :=
  if n < 0 then '-' :: Nat.toDigits 10 n.natAbs else Nat.toDigits 10 n.natAbs

/-- The function `clienterror`: the four `Rio_writen` calls on `fd`. -/
def clienterror (fd : Int) (cause errnum shortmsg longmsg : List Char) : List io_event :=
  let body := "<html><title>Tiny Error</title>".toList
  let body := body ++ "<body bgcolor=ffffff>".toList ++ crlf
  let body := body ++ errnum ++ ": ".toList ++ shortmsg ++ crlf
  let body := body ++ "<p>".toList ++ longmsg ++ ": ".toList ++ cause ++ crlf
  let body := body ++ "<hr><em>The Tiny Web server</em>".toList ++ crlf
  [io_event.written fd ("HTTP/1.0 ".toList ++ errnum ++ [' '] ++ shortmsg ++ crlf),
   io_event.written fd ("Content-type: text/html".toList ++ crlf),
   io_event.written fd ("Content-length: ".toList ++ sprintf_d (body.length : Nat) ++ crlf ++ crlf),
   io_event.written fd body]

/-- The call `sscanf(buf, "%s %s %s", method, uri, version)`: a buffer whose
conversion does not take place keeps its contents. -/
def sscanf_s_s_s (buf method uri version : List Char) :
    List Char × List Char × List Char :=
  match scan_s buf with
  | none => (method, uri, version)
  | some (m, r1) =>
    match scan_s r1 with
    | none => (m, uri, version)
    | some (u, r2) =>
      match scan_s r2 with
      | none => (m, u, version)
      | some (v, _) => (m, u, v)

/-- The call `strcasecmp(a, b)`, up to the sign of a non-zero result. -/
def strcasecmp (a b : List Char) : Int :=
  if a.map Char.toLower = b.map Char.toLower then 0 else 1

/-- The call `memcpy(dst + off, src, strlen src)` on an array `dst`. -/
def memcpy_at (dst : List Char) (off : Nat) (src : List Char) : List Char :=
  dst.take off ++ src ++ dst.drop (off + src.length)

/-- The contents of the local arrays of `doit` on entry. -/
structure doit_stack where
  method : List Char
  uri : List Char
  version : List Char
  hostname : List Char
  filename : List Char
  cachebuf : List Char

/-- The loop of lines 304-312: the first argument holds the successive results of
`Rio_readlineb` on the server connection; the result is `cachebuf`, `sizebuf`
and the writes to the client. -/
def doit_copy_loop (fd_client : Int) :
    List (List Char) → List Char → Nat → List io_event → List Char × Nat × List io_event
  | [], cachebuf, sizebuf, ev => (cachebuf, sizebuf, ev)
  | buf :: rio, cachebuf, sizebuf, ev =>
    if buf.length = 0 then (cachebuf, sizebuf, ev)
    else if sizebuf + buf.length ≤ MAX_OBJECT_SIZE then
      doit_copy_loop fd_client rio (memcpy_at cachebuf sizebuf buf) (sizebuf + buf.length)
        (ev ++ [io_event.written fd_client buf])
    else
      doit_copy_loop fd_client rio cachebuf sizebuf (ev ++ [io_event.written fd_client buf])

/-- The function `doit`.  `rio_client` holds the successive results of
`Rio_readlineb` on the client connection, `open_clientfd` gives the descriptor
that `Open_clientfd` returns and the successive results of `Rio_readlineb` on
it.  `sscanf` reads the C string in `buf`; `memcpy` and `Rio_writen` in the loop
of lines 304-312 take all the `n` bytes of a line.  The result is the cache and
the events; `none` when a `P` blocks (and for an index outside the array, which
`cache_find` does not return). -/
def doit (cache : Cache) (fd_client : Int) (rio_client : List (List Char))
    (stack : doit_stack)
    (open_clientfd : List Char → List Char → Int × List (List Char)) :
    Option (Cache × List io_event) :=
  match rio_client with
  | [] => some (cache, [])
  | buf :: rio_client =>
    if buf.length = 0 then some (cache, [])
    else
      let t := sscanf_s_s_s (c_string buf) stack.method stack.uri stack.version
      let method := t.1
      let uri := t.2.1
      if strcasecmp method "GET".toList ≠ 0 ∨ (strstr uri "https".toList).isSome then
        some (cache, clienterror fd_client method "501".toList "Not Implemented".toList
          "Tiny does not implement this method".toList)
      else
        let pu := parse_uri uri stack.hostname stack.filename
        let hostname := pu.1
        let filename := pu.2.1
        let port := pu.2.2
        let c_uri := doit_c_uri uri stack.hostname stack.filename
        match cache_find cache c_uri with
        | none => none
        | some (index, cache0) =>
          if index ≠ -1 then
            if h : 0 ≤ index ∧ index.toNat < COUNT then
              let i : Fin COUNT := ⟨index.toNat, h.2⟩
              match rd_enter (cache0 i) with
              | none => none
              | some c =>
                let cache1 := Function.update cache0 i c
                let ev := io_event.written fd_client ((cache1 i).cache_word.take MAX_OBJECT_SIZE)
                match rd_exit (cache1 i) with
                | none => none
                | some c2 =>
                  some (Function.update cache1 i c2, [io_event.lookup c_uri, ev])
            else none
          else
            let port_str := sprintf_d port
            let srv := open_clientfd hostname port_str
            let fd_server := srv.1
            if fd_server < 0 then
              some (cache0, [io_event.lookup c_uri, io_event.dial hostname port_str] ++
                clienterror fd_server method "404".toList "Not Implemented".toList
                  "Tiny does not implement this method".toList)
            else
              let reqhdr := build_header rio_client hostname filename port_str
              let ev1 := [io_event.lookup c_uri, io_event.dial hostname port_str,
                io_event.written fd_server reqhdr]
              let r := doit_copy_loop fd_client srv.2 stack.cachebuf 0 []
              if r.2.1 ≤ MAX_OBJECT_SIZE then
                match cache_cache cache0 c_uri r.1 with
                | none => none
                | some cache2 =>
                  some (cache2, ev1 ++ r.2.2 ++ [io_event.stored c_uri, io_event.closed fd_server])
              else some (cache0, ev1 ++ r.2.2 ++ [io_event.closed fd_server])

/-- The field name of a header line in the words of the spec: the text before
its first ':'. -/
def field_name (line : List Char) : List Char := line.takeWhile (fun c => c ≠ ':')

/-- The header line "X-Forwarded-Host: a". -/
def forwarded_host_line : List Char := "X-Forwarded-Host: a".toList ++ crlf

/-- The request line that `build_header` writes for `filename`. -/
def request_line (filename : List Char) : List Char :=
  "GET ".toList ++ filename ++ " HTTP/1.0".toList ++ crlf

/-- The Host line that `build_header` writes. -/
def host_line (hostname port : List Char) : List Char :=
  "Host: ".toList ++ hostname ++ [':'] ++ port ++ crlf

/-- Client header lines used as sample input: two fields, the blank line and a
line of a request body. -/
def sample_headers : List (List Char) :=
  ["Accept: text/html".toList ++ crlf, "Host: other.example".toList ++ crlf,
   "User-Agent: curl".toList ++ crlf, "Proxy-Connection: keep-alive".toList ++ crlf,
   crlf, "body".toList ++ crlf]

/-- The header line "X: y" NUL "z" CR LF: a NUL byte stands in its value. -/
def nul_line : List Char := "X: y".toList ++ [Char.ofNat 0] ++ "z".toList ++ crlf

/-- The bytes that a list of events writes to the descriptor `fd`, in order. -/
def written_to (fd : Int) : List io_event → List Char
  | [] => []
  | io_event.written fd1 bytes :: ev =>
    if fd1 = fd then bytes ++ written_to fd ev else written_to fd ev
  | _ :: ev => written_to fd ev

/-- The writes of lines 311 for the lines read before the end of input. -/
def forwarded (fd_client : Int) (rio : List (List Char)) : List io_event :=
  (rio.takeWhile (fun buf => decide (buf ≠ []))).map (fun buf => io_event.written fd_client buf)

/-- The request line "GET http://example.com:8080/index.html HTTP/1.1". -/
def sample_request_line : List Char :=
  "GET http://example.com:8080/index.html HTTP/1.1".toList ++ crlf

/-- Local arrays of `doit` that hold zero bytes on entry; `cachebuf` has its
`MAX_OBJECT_SIZE` bytes. -/
def blank_stack : doit_stack :=
  { method := [], uri := [], version := [], hostname := [], filename := [],
    cachebuf := List.replicate MAX_OBJECT_SIZE (Char.ofNat 0) }

/-- The request line "GET http://nope.invalid/ HTTP/1.1". -/
def nope_request_line : List Char := "GET http://nope.invalid/ HTTP/1.1".toList ++ crlf

/-- An upstream that cannot be reached: `Open_clientfd` returns -1. -/
def no_server : List Char → List Char → Int × List (List Char) := fun _ _ => (-1, [])

/-- An upstream response of 13 lines of 8191 bytes each, 106483 bytes in all. -/
def big_response : List (List Char) := List.replicate 13 (List.replicate 8191 'x')

/-- An upstream on descriptor 5 that answers with `big_response`. -/
def big_server : List Char → List Char → Int × List (List Char) := fun _ _ => (5, big_response)

/-- A serial call on the cache: `cache_find(url)` or `cache_cache(uri, buf)`. -/
inductive cache_op
  | find (url : List Char)
  | store (uri buf : List Char)

/-- Is the call a `cache_cache`? -/
def cache_op.is_store : cache_op → Bool
  | cache_op.find _ => false
  | cache_op.store _ _ => true

/-- Serial calls from a cache.  The result is the final cache and, for each
`cache_cache` in turn, the line it overwrites: the one `cache_evict` returns on
the cache the call starts from. -/
def run_ops : Cache → List cache_op → Option (Cache × List (Fin COUNT))
  | cache, [] => some (cache, [])
  | cache, cache_op.find url :: ops =>
    match cache_find cache url with
    | none => none
    | some (_, cache1) => run_ops cache1 ops
  | cache, cache_op.store uri buf :: ops =>
    match cache_evict cache with
    | none => none
    | some (v, _) =>
      match cache_cache cache uri buf with
      | none => none
      | some cache1 =>
        match run_ops cache1 ops with
        | none => none
        | some (cache2, victims) => some (cache2, v :: victims)

/-! # Theorems -/

/-! ## Reader protocol and loop lemmas -/

theorem P_eq_some {s r : Nat} : P s = some r ↔ 0 < s ∧ r = s - 1 := by
  unfold P; split_ifs with h <;> simp [h, eq_comm]

theorem rd_enter_exit {c c1 : cache_line} (h : rd_enter c = some c1) :
    rd_exit c1 = some c ∧ c1.empty = c.empty ∧ c1.cache_url = c.cache_url ∧
      c1.timetag = c.timetag := by
  obtain ⟨w, u, t, e, r, mw, mr, mt⟩ := c
  unfold rd_enter P at h
  simp only at h
  split_ifs at h with h1 h2 h3
  all_goals
    simp only [Option.some.injEq] at h
    subst h
    have hr : r = 0 ∨ r ≠ 0 := by omega
    rcases hr with hr | hr
    all_goals (simp [rd_exit, P, V, *] at *; try omega)

theorem rd_enter_unlocked {c : cache_line} (h : line_unlocked c) :
    (rd_enter c).isSome := by
  obtain ⟨h1, h2, h3, h4⟩ := h
  simp [rd_enter, P, h1, h2, h3]

theorem cache_find_loop_succ (url : List Char) (n i : Nat) (cache : Cache) (h : i < COUNT) :
    cache_find_loop url (n + 1) i cache =
      match rd_enter (cache ⟨i, h⟩) with
      | none => none
      | some _ =>
        if (cache ⟨i, h⟩).empty = 0 ∧ url = (cache ⟨i, h⟩).cache_url then some ((i : Int), cache)
        else cache_find_loop url n (i + 1) cache := by
  rw [cache_find_loop, dif_pos h]
  cases hc : rd_enter (cache ⟨i, h⟩) with
  | none => rfl
  | some c1 =>
    obtain ⟨h1, h2, h3, -⟩ := rd_enter_exit hc
    simp only [Function.update_same, h1, h2, h3, Function.update_idem, Function.update_eq_self]

theorem cache_evict_loop_succ (n i : Nat) (min : Int) (index : Fin COUNT) (cache : Cache)
    (h : i < COUNT) :
    cache_evict_loop (n + 1) i min index cache =
      match rd_enter (cache ⟨i, h⟩) with
      | none => none
      | some _ =>
        if (cache ⟨i, h⟩).empty = 1 then some (⟨i, h⟩, cache)
        else if (cache ⟨i, h⟩).timetag < min then
          cache_evict_loop n (i + 1) (cache ⟨i, h⟩).timetag ⟨i, h⟩ cache
        else cache_evict_loop n (i + 1) min index cache := by
  rw [cache_evict_loop, dif_pos h]
  cases hc : rd_enter (cache ⟨i, h⟩) with
  | none => rfl
  | some c1 =>
    obtain ⟨h1, h2, h3, h4⟩ := rd_enter_exit hc
    simp only [Function.update_same, h1, h2, h3, h4, Function.update_idem,
      Function.update_eq_self]
    split_ifs <;> rfl

theorem cache_find_loop_isSome (url : List Char) (cache : Cache) (hu : unlocked cache) :
    ∀ n i, (cache_find_loop url n i cache).isSome := by
  intro n
  induction n with
  | zero => intro i; simp [cache_find_loop]
  | succ n ih =>
    intro i
    by_cases h : i < COUNT
    · rw [cache_find_loop_succ url n i cache h]
      have := rd_enter_unlocked (hu ⟨i, h⟩)
      obtain ⟨c1, hc1⟩ := Option.isSome_iff_exists.mp this
      rw [hc1]
      simp only
      split_ifs
      · rfl
      · exact ih (i + 1)
    · rw [cache_find_loop, dif_neg h]; rfl

theorem cache_find_loop_spec (url : List Char) (cache : Cache) :
    ∀ n i r cache', i + n = COUNT → cache_find_loop url n i cache = some (r, cache') →
      cache' = cache ∧
        ((r = -1 ∧ ∀ j : Fin COUNT, i ≤ j.val → ¬ hit cache url j) ∨
          ∃ k : Fin COUNT, r = (k.val : Int) ∧ i ≤ k.val ∧ hit cache url k ∧
            ∀ j : Fin COUNT, i ≤ j.val → j < k → ¬ hit cache url j) := by
  intro n
  induction n with
  | zero =>
    intro i r cache' hi h
    simp only [cache_find_loop, Option.some.injEq, Prod.mk.injEq] at h
    refine ⟨h.2.symm, Or.inl ⟨h.1.symm, ?_⟩⟩
    intro j hj
    have := j.isLt
    omega
  | succ n ih =>
    intro i r cache' hi h
    have hlt : i < COUNT := by omega
    rw [cache_find_loop_succ url n i cache hlt] at h
    cases hc : rd_enter (cache ⟨i, hlt⟩) with
    | none => rw [hc] at h; simp at h
    | some c1 =>
      rw [hc] at h
      simp only at h
      split_ifs at h with hh
      · simp only [Option.some.injEq, Prod.mk.injEq] at h
        refine ⟨h.2.symm, Or.inr ⟨⟨i, hlt⟩, h.1.symm, le_refl _, hh, ?_⟩⟩
        intro j hj hjk
        have : j.val < i := hjk
        omega
      · obtain ⟨h1, h2⟩ := ih (i + 1) r cache' (by omega) h
        refine ⟨h1, ?_⟩
        have hstep : ∀ j : Fin COUNT, i ≤ j.val → ¬ (i + 1 ≤ j.val) → ¬ hit cache url j := by
          intro j hj hj2
          have : j = ⟨i, hlt⟩ := Fin.ext (by simp; omega)
          rw [this]; exact hh
        rcases h2 with ⟨hr, hall⟩ | ⟨k, hk, hik, hhit, hlow⟩
        · refine Or.inl ⟨hr, fun j hj => ?_⟩
          by_cases hj2 : i + 1 ≤ j.val
          · exact hall j hj2
          · exact hstep j hj hj2
        · refine Or.inr ⟨k, hk, by omega, hhit, fun j hj hjk => ?_⟩
          by_cases hj2 : i + 1 ≤ j.val
          · exact hlow j hj2 hjk
          · exact hstep j hj hj2

theorem cache_evict_loop_isSome (cache : Cache) (hu : unlocked cache) :
    ∀ n i min index, (cache_evict_loop n i min index cache).isSome := by
  intro n
  induction n with
  | zero => intro i min index; simp [cache_evict_loop]
  | succ n ih =>
    intro i min index
    by_cases h : i < COUNT
    · rw [cache_evict_loop_succ n i min index cache h]
      have := rd_enter_unlocked (hu ⟨i, h⟩)
      obtain ⟨c1, hc1⟩ := Option.isSome_iff_exists.mp this
      rw [hc1]
      simp only
      split_ifs
      · rfl
      · exact ih _ _ _
      · exact ih _ _ _
    · rw [cache_evict_loop, dif_neg h]; rfl

theorem fin_eq_or_succ_le {i : Nat} (hlt : i < COUNT) (j : Fin COUNT) (hj : i ≤ j.val) :
    j = ⟨i, hlt⟩ ∨ i + 1 ≤ j.val := by
  by_cases h : j.val = i
  · exact Or.inl (Fin.ext h)
  · exact Or.inr (by omega)

theorem cache_evict_loop_spec (cache : Cache) :
    ∀ n i min index v cache', i + n = COUNT →
      cache_evict_loop n i min index cache = some (v, cache') →
      cache' = cache ∧
        (((cache v).empty = 1 ∧ i ≤ v.val ∧
            ∀ j : Fin COUNT, i ≤ j.val → j < v → (cache j).empty ≠ 1) ∨
          ((∀ j : Fin COUNT, i ≤ j.val → (cache j).empty ≠ 1) ∧
            ((v = index ∧ ∀ j : Fin COUNT, i ≤ j.val → min ≤ (cache j).timetag) ∨
              (i ≤ v.val ∧ (cache v).timetag < min ∧
                (∀ j : Fin COUNT, i ≤ j.val → (cache v).timetag ≤ (cache j).timetag) ∧
                ∀ j : Fin COUNT, i ≤ j.val → j < v → (cache v).timetag < (cache j).timetag)))) := by
  intro n
  induction n with
  | zero =>
    intro i min index v cache' hi h
    simp only [cache_evict_loop, Option.some.injEq, Prod.mk.injEq] at h
    have hge : ∀ j : Fin COUNT, ¬ i ≤ j.val := fun j hj => by have := j.isLt; omega
    exact ⟨h.2.symm, Or.inr ⟨fun j hj => absurd hj (hge j),
      Or.inl ⟨h.1.symm, fun j hj => absurd hj (hge j)⟩⟩⟩
  | succ n ih =>
    intro i min index v cache' hi h
    have hlt : i < COUNT := by omega
    rw [cache_evict_loop_succ n i min index cache hlt] at h
    cases hc : rd_enter (cache ⟨i, hlt⟩) with
    | none => rw [hc] at h; simp at h
    | some c1 =>
      rw [hc] at h
      simp only at h
      split_ifs at h with he ht
      · simp only [Option.some.injEq, Prod.mk.injEq] at h
        obtain ⟨hv, hc'⟩ := h
        subst hv
        refine ⟨hc'.symm, Or.inl ⟨he, le_refl _, fun j hj hjv => ?_⟩⟩
        have : j.val < i := hjv
        omega
      · obtain ⟨h1, h2⟩ := ih (i + 1) _ _ v cache' (by omega) h
        refine ⟨h1, ?_⟩
        rcases h2 with ⟨hve, hiv, hlow⟩ | ⟨hne, hmin⟩
        · refine Or.inl ⟨hve, by omega, fun j hj hjv => ?_⟩
          rcases fin_eq_or_succ_le hlt j hj with rfl | hj2
          · exact he
          · exact hlow j hj2 hjv
        · refine Or.inr ⟨fun j hj => ?_, Or.inr ?_⟩
          · rcases fin_eq_or_succ_le hlt j hj with rfl | hj2
            · exact he
            · exact hne j hj2
          · rcases hmin with ⟨hv, hall⟩ | ⟨hiv, hvt, hall, hfirst⟩
            · subst hv
              refine ⟨le_refl _, ht, fun j hj => ?_, fun j hj hjv => ?_⟩
              · rcases fin_eq_or_succ_le hlt j hj with rfl | hj2
                · exact le_refl _
                · exact hall j hj2
              · have : j.val < i := hjv
                omega
            · refine ⟨by omega, lt_trans hvt ht, fun j hj => ?_, fun j hj hjv => ?_⟩
              · rcases fin_eq_or_succ_le hlt j hj with rfl | hj2
                · exact le_of_lt hvt
                · exact hall j hj2
              · rcases fin_eq_or_succ_le hlt j hj with rfl | hj2
                · exact hvt
                · exact hfirst j hj2 hjv
      · obtain ⟨h1, h2⟩ := ih (i + 1) _ _ v cache' (by omega) h
        refine ⟨h1, ?_⟩
        rcases h2 with ⟨hve, hiv, hlow⟩ | ⟨hne, hmin⟩
        · refine Or.inl ⟨hve, by omega, fun j hj hjv => ?_⟩
          rcases fin_eq_or_succ_le hlt j hj with rfl | hj2
          · exact he
          · exact hlow j hj2 hjv
        · refine Or.inr ⟨fun j hj => ?_, ?_⟩
          · rcases fin_eq_or_succ_le hlt j hj with rfl | hj2
            · exact he
            · exact hne j hj2
          · rcases hmin with ⟨hv, hall⟩ | ⟨hiv, hvt, hall, hfirst⟩
            · refine Or.inl ⟨hv, fun j hj => ?_⟩
              rcases fin_eq_or_succ_le hlt j hj with rfl | hj2
              · exact not_lt.mp ht
              · exact hall j hj2
            · refine Or.inr ⟨by omega, hvt, fun j hj => ?_, fun j hj hjv => ?_⟩
              · rcases fin_eq_or_succ_le hlt j hj with rfl | hj2
                · exact le_of_lt (lt_of_lt_of_le hvt (not_lt.mp ht))
                · exact hall j hj2
              · rcases fin_eq_or_succ_le hlt j hj with rfl | hj2
                · exact lt_of_lt_of_le hvt (not_lt.mp ht)
                · exact hfirst j hj2 hjv

theorem age_line_eq_some {c c1 : cache_line} (h : age_line c = some c1) : c1 = aged c := by
  obtain ⟨w, u, t, e, r, mw, mr, mt⟩ := c
  unfold age_line P at h
  simp only at h
  split_ifs at h with h1 h2
  all_goals
    simp only [Option.some.injEq] at h
    subst h
    simp [aged, V, *]
    try omega

theorem age_line_of_pos {c : cache_line} (h : 0 < c.mutex_time) :
    age_line c = some (aged c) := by
  obtain ⟨w, u, t, e, r, mw, mr, mt⟩ := c
  simp only at h
  unfold age_line P aged V
  simp only [h, if_true]
  split_ifs <;> simp <;> omega

theorem cache_cache_loop_spec (evict : Fin COUNT) :
    ∀ n i cache cache', i + n = COUNT → cache_cache_loop evict n i cache = some cache' →
      cache' = fun j => if i ≤ j.val ∧ j ≠ evict then aged (cache j) else cache j := by
  intro n
  induction n with
  | zero =>
    intro i cache cache' hi h
    simp only [cache_cache_loop, Option.some.injEq] at h
    subst h
    funext j
    have := j.isLt
    rw [if_neg]
    omega
  | succ n ih =>
    intro i cache cache' hi h
    have hlt : i < COUNT := by omega
    rw [cache_cache_loop, dif_pos hlt] at h
    split_ifs at h with he
    · rw [ih (i + 1) cache cache' (by omega) h]
      funext j
      by_cases hj : j = evict
      · simp [hj]
      · have : j.val ≠ i := fun hji => hj (by rw [← he]; exact Fin.ext hji)
        have h2 : (i + 1 ≤ j.val) ↔ i ≤ j.val := by omega
        simp only [h2]
    · cases hc : age_line (cache ⟨i, hlt⟩) with
      | none => rw [hc] at h; simp at h
      | some c1 =>
        rw [hc] at h
        simp only at h
        have hc1 := age_line_eq_some hc
        rw [ih (i + 1) _ cache' (by omega) h]
        funext j
        by_cases hji : j = ⟨i, hlt⟩
        · subst hji
          simp [he, hc1]
        · have hne : j.val ≠ i := fun hv => hji (Fin.ext hv)
          have h2 : (i + 1 ≤ j.val) ↔ i ≤ j.val := by omega
          simp only [h2, Function.update_noteq hji]

theorem cache_cache_loop_isSome (evict : Fin COUNT) :
    ∀ n i cache, (∀ j : Fin COUNT, j ≠ evict → 0 < (cache j).mutex_time) →
      (cache_cache_loop evict n i cache).isSome := by
  intro n
  induction n with
  | zero => intro i cache _; simp [cache_cache_loop]
  | succ n ih =>
    intro i cache hpos
    by_cases hlt : i < COUNT
    · rw [cache_cache_loop, dif_pos hlt]
      split_ifs with he
      · exact ih _ _ hpos
      · rw [age_line_of_pos (hpos _ he)]
        simp only
        apply ih
        intro j hj
        by_cases hji : j = ⟨i, hlt⟩
        · subst hji
          simpa [aged] using hpos _ hj
        · rw [Function.update_noteq hji]
          exact hpos j hj
    · rw [cache_cache_loop, dif_neg hlt]; rfl

theorem cache_evict_unchanged {cache cache' : Cache} {v : Fin COUNT}
    (h : cache_evict cache = some (v, cache')) : cache' = cache :=
  (cache_evict_loop_spec cache COUNT 0 _ _ v cache' (by simp) h).1

theorem cache_evict_isSome {cache : Cache} (hu : unlocked cache) :
    (cache_evict cache).isSome :=
  cache_evict_loop_isSome cache hu _ _ _ _

theorem cache_cache_eq_some {cache cache' : Cache} {uri buf : List Char}
    (h : cache_cache cache uri buf = some cache') :
    ∃ v, cache_evict cache = some (v, cache) ∧ cache' = admitted cache v uri buf := by
  unfold cache_cache at h
  cases he : cache_evict cache with
  | none => rw [he] at h; simp at h
  | some p =>
    obtain ⟨v, cache0⟩ := p
    have h0 := cache_evict_unchanged he
    subst h0
    rw [he] at h
    simp only at h
    cases hp : P (cache0 v).mutex_wt with
    | none => rw [hp] at h; simp at h
    | some w =>
      rw [hp] at h
      simp only at h
      obtain ⟨hpos, hw⟩ := P_eq_some.mp hp
      cases hl : cache_cache_loop v COUNT 0 _ with
      | none => rw [hl] at h; simp at h
      | some cache3 =>
        rw [hl] at h
        simp only [Option.some.injEq] at h
        have h3 := cache_cache_loop_spec v COUNT 0 _ cache3 (by simp) hl
        refine ⟨v, rfl, ?_⟩
        rw [← h, h3]
        funext j
        by_cases hj : j = v
        · subst hj
          simp [admitted, V, hw]
          omega
        · simp [admitted, hj, Function.update_noteq hj]

theorem cache_cache_isSome {cache : Cache} (hu : unlocked cache) (uri buf : List Char) :
    (cache_cache cache uri buf).isSome := by
  obtain ⟨p, he⟩ := Option.isSome_iff_exists.mp (cache_evict_isSome hu)
  obtain ⟨v, cache0⟩ := p
  have h0 := cache_evict_unchanged he
  subst h0
  unfold cache_cache
  rw [he]
  simp only
  have hw : P (cache0 v).mutex_wt = some 0 := by
    rw [(hu v).2.1]; rfl
  rw [hw]
  simp only
  have hl := cache_cache_loop_isSome v COUNT 0
    (Function.update
      (Function.update cache0 v { cache0 v with mutex_wt := 0 }) v
      { Function.update cache0 v { cache0 v with mutex_wt := 0 } v with
        cache_word := buf.take MAX_OBJECT_SIZE, cache_url := uri,
        empty := 0, timetag := (COUNT : Int) })
    (by
      intro j hj
      rw [Function.update_noteq hj, Function.update_noteq hj, (hu j).2.2.2]
      exact Nat.one_pos)
  obtain ⟨c3, hc3⟩ := Option.isSome_iff_exists.mp hl
  rw [hc3]
  rfl

theorem unlocked_admitted {cache : Cache} (hu : unlocked cache) (v : Fin COUNT)
    (uri buf : List Char) : unlocked (admitted cache v uri buf) := by
  intro j
  have hj := hu j
  have hv := hu v
  unfold admitted
  split_ifs with h
  · exact hv
  · exact hj

theorem unlocked_cache_init (cache : Cache) : unlocked (cache_init cache) := by
  intro j
  simp [cache_init, line_unlocked]

/-- C3: in every cache state and for every key, a value returned by `cache_find`
is either -1 or the index of a line; it is -1 exactly when no non-empty line has
the key; a returned index is the lowest index of a non-empty line whose
`cache_url` equals the key; the index of an empty line is never returned,
whatever its stale `cache_url`; the cache is left as it was; and the call does
return whenever no lock is held. -/
theorem C3_cache_find_lowest_match (cache : Cache) (url : List Char) :
    (unlocked cache → (cache_find cache url).isSome) ∧
    ∀ (r : Int) (cache' : Cache), cache_find cache url = some (r, cache') →
      cache' = cache ∧
      (r = -1 ∨ ∃ i : Fin COUNT, r = (i.val : Int)) ∧
      (r = -1 ↔ ∀ j : Fin COUNT, ¬ ((cache j).empty = 0 ∧ (cache j).cache_url = url)) ∧
      (∀ i : Fin COUNT, r = (i.val : Int) →
        (cache i).empty = 0 ∧ (cache i).cache_url = url ∧
        ∀ j : Fin COUNT, j < i → ¬ ((cache j).empty = 0 ∧ (cache j).cache_url = url)) ∧
      (∀ i : Fin COUNT, (cache i).empty ≠ 0 → r ≠ (i.val : Int)) := by
  refine ⟨fun hu => cache_find_loop_isSome url cache hu COUNT 0, ?_⟩
  intro r cache' h
  obtain ⟨hc, hs⟩ := cache_find_loop_spec url cache COUNT 0 r cache' (by simp) h
  have hhit : ∀ j : Fin COUNT,
      hit cache url j ↔ ((cache j).empty = 0 ∧ (cache j).cache_url = url) := by
    intro j; unfold hit; constructor
    · rintro ⟨a, b⟩; exact ⟨a, b.symm⟩
    · rintro ⟨a, b⟩; exact ⟨a, b.symm⟩
  simp only [hhit] at hs
  refine ⟨hc, ?_⟩
  rcases hs with ⟨hr, hall⟩ | ⟨k, hk, -, hkhit, hlow⟩
  · subst hr
    refine ⟨Or.inl rfl, ⟨fun _ j => hall j (Nat.zero_le _), fun _ => rfl⟩, ?_, ?_⟩
    · intro i hi; omega
    · intro i _ hi; omega
  · have hinj : ∀ i : Fin COUNT, r = (i.val : Int) → i = k := by
      intro i hi; apply Fin.ext; omega
    refine ⟨Or.inr ⟨k, hk⟩, ⟨fun h1 => by omega, fun h1 => absurd hkhit (h1 k)⟩, ?_, ?_⟩
    · intro i hi
      rw [hinj i hi]
      exact ⟨hkhit.1, hkhit.2, fun j hj => hlow j (Nat.zero_le _) hj⟩
    · intro i hne hi
      rw [hinj i hi] at hne
      exact hne hkhit.1

/-- C4: in every cache state with at least one line whose `empty` is 1, a value
returned by `cache_evict` is the lowest index of such a line, whatever the
timetags are, the cache is left as it was, and the call does return whenever no
lock is held. -/
theorem C4_cache_evict_lowest_empty (cache : Cache)
    (hempty : ∃ i : Fin COUNT, (cache i).empty = 1) :
    (unlocked cache → (cache_evict cache).isSome) ∧
    ∀ (v : Fin COUNT) (cache' : Cache), cache_evict cache = some (v, cache') →
      cache' = cache ∧ (cache v).empty = 1 ∧
      ∀ j : Fin COUNT, j < v → (cache j).empty ≠ 1 := by
  refine ⟨fun hu => cache_evict_isSome hu, ?_⟩
  intro v cache' h
  obtain ⟨hc, hs⟩ := cache_evict_loop_spec cache COUNT 0 _ _ v cache' (by simp) h
  refine ⟨hc, ?_⟩
  rcases hs with ⟨hv, -, hlow⟩ | ⟨hne, -⟩
  · exact ⟨hv, fun j hj => hlow j (Nat.zero_le _) hj⟩
  · obtain ⟨i, hi⟩ := hempty
    exact absurd hi (hne i (Nat.zero_le _))

/-- Witness of C4 on a cache whose lines 2..9 are empty. -/
theorem C4_cache_evict_lowest_empty_witness :
    (∃ i : Fin COUNT, (cache_two_used i).empty = 1) ∧
    ((unlocked cache_two_used → (cache_evict cache_two_used).isSome) ∧
    ∀ (v : Fin COUNT) (cache' : Cache), cache_evict cache_two_used = some (v, cache') →
      cache' = cache_two_used ∧ (cache_two_used v).empty = 1 ∧
      ∀ j : Fin COUNT, j < v → (cache_two_used j).empty ≠ 1) :=
  ⟨⟨⟨2, by decide⟩, by decide⟩,
    C4_cache_evict_lowest_empty cache_two_used ⟨⟨2, by decide⟩, by decide⟩⟩

theorem admitted_victim (cache : Cache) (v : Fin COUNT) (uri buf : List Char) :
    admitted cache v uri buf v =
      { cache v with
        cache_word := buf.take MAX_OBJECT_SIZE, cache_url := uri,
        empty := 0, timetag := (COUNT : Int) } := by
  simp [admitted]

theorem admitted_other (cache : Cache) (v : Fin COUNT) (uri buf : List Char)
    {j : Fin COUNT} (h : j ≠ v) : admitted cache v uri buf j = aged (cache j) := by
  simp [admitted, h]

/-- C6: for every cache state, key and buffer, a cache returned by `cache_cache`
has, at the victim `v` that `cache_evict` returns on the prior state,
`cache_url = uri`, `cache_word` = the first `MAX_OBJECT_SIZE` bytes of `buf`,
`empty = 0` and `timetag = COUNT`; every other line that was non-empty has its
timetag decreased by exactly 1, every other line that was empty keeps its
timetag; and the call does return whenever no lock is held. -/
theorem C6_cache_cache_effect (cache : Cache) (uri buf : List Char) :
    (unlocked cache → (cache_cache cache uri buf).isSome) ∧
    ∀ cache' : Cache, cache_cache cache uri buf = some cache' →
      ∃ v : Fin COUNT, cache_evict cache = some (v, cache) ∧
        (cache' v).cache_url = uri ∧
        (cache' v).cache_word = buf.take MAX_OBJECT_SIZE ∧
        (cache' v).empty = 0 ∧
        (cache' v).timetag = (COUNT : Int) ∧
        ∀ j : Fin COUNT, j ≠ v →
          ((cache j).empty = 0 → (cache' j).timetag = (cache j).timetag - 1) ∧
          ((cache j).empty ≠ 0 → (cache' j).timetag = (cache j).timetag) := by
  refine ⟨fun hu => cache_cache_isSome hu uri buf, ?_⟩
  intro cache' h
  obtain ⟨v, hv, hc⟩ := cache_cache_eq_some h
  subst hc
  refine ⟨v, hv, ?_, ?_, ?_, ?_, ?_⟩
  · rw [admitted_victim]
  · rw [admitted_victim]
  · rw [admitted_victim]
  · rw [admitted_victim]
  · intro j hj
    rw [admitted_other cache v uri buf hj]
    constructor
    · intro he; simp [aged, he]
    · intro he; simp [aged, he]

theorem cached_keys_full {cache : Cache} (hfull : ∀ j : Fin COUNT, (cache j).empty = 0) :
    cached_keys cache = Finset.univ.image (fun j => (cache j).cache_url) := by
  unfold cached_keys
  congr 1
  ext j
  simp [hfull j]

/-- C7: for every full cache state holding `COUNT` pairwise-distinct keys and every
key not in the cache, a cache returned by `cache_cache` differs from the prior
one in `cache_url`, `cache_word`, `empty` at exactly one line, the victim; the
other lines keep these three fields; the set of cached keys is the old set
minus the victim's key plus the new key and has exactly `COUNT` elements; and
the call does return whenever no lock is held. -/
theorem C7_eviction_boundedness (cache : Cache) (uri buf : List Char)
    (hfull : ∀ j : Fin COUNT, (cache j).empty = 0)
    (hdistinct : ∀ i j : Fin COUNT, (cache i).cache_url = (cache j).cache_url → i = j)
    (hnew : ∀ j : Fin COUNT, (cache j).cache_url ≠ uri) :
    (unlocked cache → (cache_cache cache uri buf).isSome) ∧
    ∀ cache' : Cache, cache_cache cache uri buf = some cache' →
      ∃ v : Fin COUNT, cache_evict cache = some (v, cache) ∧
        (∀ j : Fin COUNT,
          ((cache' j).cache_url, (cache' j).cache_word, (cache' j).empty) ≠
            ((cache j).cache_url, (cache j).cache_word, (cache j).empty) ↔ j = v) ∧
        (cache' v).cache_url = uri ∧
        (cache' v).cache_word = buf.take MAX_OBJECT_SIZE ∧
        (cache' v).empty = 0 ∧
        cached_keys cache' = insert uri ((cached_keys cache).erase (cache v).cache_url) ∧
        (cached_keys cache).card = COUNT ∧
        (cached_keys cache').card = COUNT := by
  refine ⟨fun hu => cache_cache_isSome hu uri buf, ?_⟩
  intro cache' h
  obtain ⟨v, hv, hc⟩ := cache_cache_eq_some h
  subst hc
  have hother : ∀ j : Fin COUNT, j ≠ v →
      (admitted cache v uri buf j).cache_url = (cache j).cache_url ∧
      (admitted cache v uri buf j).cache_word = (cache j).cache_word ∧
      (admitted cache v uri buf j).empty = (cache j).empty := by
    intro j hj
    rw [admitted_other cache v uri buf hj]
    simp [aged]
  have hfull' : ∀ j : Fin COUNT, (admitted cache v uri buf j).empty = 0 := by
    intro j
    by_cases hj : j = v
    · subst hj; rw [admitted_victim]
    · rw [(hother j hj).2.2]; exact hfull j
  have hinj : Function.Injective (fun j : Fin COUNT => (cache j).cache_url) :=
    fun i j hij => hdistinct i j hij
  have hinj' : Function.Injective (fun j : Fin COUNT => (admitted cache v uri buf j).cache_url) := by
    intro i j hij
    simp only at hij
    by_cases hi : i = v <;> by_cases hj : j = v
    · rw [hi, hj]
    · subst hi
      rw [admitted_victim, (hother j hj).1] at hij
      exact absurd hij.symm (hnew j)
    · subst hj
      rw [admitted_victim, (hother i hi).1] at hij
      exact absurd hij (hnew i)
    · rw [(hother i hi).1, (hother j hj).1] at hij
      exact hdistinct i j hij
  refine ⟨v, hv, ?_, ?_, ?_, ?_, ?_, ?_, ?_⟩
  · intro j
    constructor
    · intro hne
      by_contra hj
      obtain ⟨h1, h2, h3⟩ := hother j hj
      exact hne (by rw [h1, h2, h3])
    · intro hj hEq
      subst hj
      rw [admitted_victim] at hEq
      simp only [Prod.mk.injEq] at hEq
      exact hnew j hEq.1.symm
  · rw [admitted_victim]
  · rw [admitted_victim]
  · rw [admitted_victim]
  · rw [cached_keys_full hfull, cached_keys_full hfull']
    ext k
    simp only [Finset.mem_image, Finset.mem_univ, true_and, Finset.mem_insert,
      Finset.mem_erase]
    constructor
    · rintro ⟨j, hj⟩
      by_cases hjv : j = v
      · subst hjv
        rw [admitted_victim] at hj
        exact Or.inl hj.symm
      · rw [(hother j hjv).1] at hj
        refine Or.inr ⟨?_, j, hj⟩
        intro hk
        exact hjv (hdistinct j v (by rw [hj, hk]))
    · rintro (hk | ⟨hk, j, hj⟩)
      · exact ⟨v, by rw [admitted_victim]; exact hk.symm⟩
      · have hjv : j ≠ v := by
          intro hjv; subst hjv; exact hk hj.symm
        exact ⟨j, by rw [(hother j hjv).1]; exact hj⟩
  · rw [cached_keys_full hfull, Finset.card_image_of_injective _ hinj]
    simp
  · rw [cached_keys_full hfull', Finset.card_image_of_injective _ hinj']
    simp

theorem round_robin_init (c0 : Cache) : round_robin [] (cache_init c0) := by
  refine ⟨unlocked_cache_init c0, fun j => ⟨fun h => ?_, fun _ => ?_⟩⟩
  · simp at h
  · simp [cache_init]

theorem round_robin_evict {hist : List (List Char × List Char)} {cache : Cache}
    (h : round_robin hist cache) :
    cache_evict cache = some (⟨hist.length % COUNT, Nat.mod_lt _ (by decide)⟩, cache) := by
  obtain ⟨hu, hl⟩ := h
  obtain ⟨p, hp⟩ := Option.isSome_iff_exists.mp (cache_evict_isSome hu)
  obtain ⟨v, c'⟩ := p
  obtain ⟨hc, hs⟩ := cache_evict_loop_spec cache COUNT 0 _ _ v c' (by simp) hp
  rw [hc] at hp
  rw [hp]
  congr 2
  apply Fin.ext
  simp only
  have hvlt := v.isLt
  by_cases hm : hist.length < COUNT
  · rcases hs with ⟨hv, -, hlow⟩ | ⟨hne, -⟩
    · have h1 : hist.length ≤ v.val := by
        by_contra hlt
        have := ((hl v).1 (by omega)).1
        omega
      have h2 : ¬ hist.length < v.val := by
        intro hlt
        have := hlow ⟨hist.length, hm⟩ (Nat.zero_le _) hlt
        exact this ((hl ⟨hist.length, hm⟩).2 (le_refl _)).1
      rw [Nat.mod_eq_of_lt hm]
      omega
    · exact absurd ((hl ⟨hist.length, hm⟩).2 (le_refl _)).1 (hne _ (Nat.zero_le _))
  · have hfull : ∀ j : Fin COUNT, (cache j).empty = 0 ∧
        (cache j).timetag = (COUNT : Int) - (((hist.length - 1 - j.val) % COUNT : Nat) : Int) :=
      fun j => ⟨((hl j).1 (by have := j.isLt; omega)).1, ((hl j).1 (by have := j.isLt; omega)).2.1⟩
    have h0 := (hfull ⟨hist.length % COUNT, Nat.mod_lt _ (by decide)⟩).2
    simp only at h0
    have hvt := (hfull v).2
    rcases hs with ⟨hv, -, -⟩ | ⟨-, ⟨-, hall⟩ | ⟨-, -, hall, -⟩⟩
    · have := (hfull v).1
      omega
    · have := hall ⟨hist.length % COUNT, Nat.mod_lt _ (by decide)⟩ (Nat.zero_le _)
      simp only [COUNT] at *
      omega
    · have := hall ⟨hist.length % COUNT, Nat.mod_lt _ (by decide)⟩ (Nat.zero_le _)
      simp only [COUNT] at *
      omega

theorem round_robin_admitted {hist : List (List Char × List Char)} {cache : Cache}
    (h : round_robin hist cache) (uri buf : List Char) :
    round_robin (hist ++ [(uri, buf)])
      (admitted cache ⟨hist.length % COUNT, Nat.mod_lt _ (by decide)⟩ uri buf) := by
  obtain ⟨hu, hl⟩ := h
  refine ⟨unlocked_admitted hu _ uri buf, fun j => ?_⟩
  have hjlt := j.isLt
  simp only [List.length_append, List.length_singleton]
  by_cases hj : j = ⟨hist.length % COUNT, Nat.mod_lt _ (by decide)⟩
  · have hjv : j.val = hist.length % COUNT := by rw [hj]
    rw [hj, admitted_victim]
    refine ⟨fun _ => ⟨rfl, ?_, (uri, buf), ?_, rfl, rfl⟩, fun hge => ?_⟩
    · show (COUNT : Int) = _
      simp only [COUNT] at *
      omega
    · have : last_write (hist.length + 1) (hist.length % COUNT) = hist.length := by
        unfold last_write
        simp only [COUNT] at *
        omega
      rw [this]
      exact List.getElem?_concat_length hist (uri, buf)
    · simp only [COUNT] at *
      omega
  · have hjv : j.val ≠ hist.length % COUNT := fun hv => hj (Fin.ext hv)
    rw [admitted_other cache _ uri buf hj]
    refine ⟨fun hlt => ?_, fun hge => ?_⟩
    · have hlt2 : j.val < hist.length := by
        by_contra hge
        have : j.val = hist.length := by omega
        have hm : hist.length % COUNT = hist.length := Nat.mod_eq_of_lt (by omega)
        omega
      obtain ⟨he, ht, kb, hkb, hurl, hword⟩ := (hl j).1 hlt2
      refine ⟨by simp [aged, he], ?_, kb, ?_, by simpa [aged] using hurl,
        by simpa [aged] using hword⟩
      · simp only [aged, he, if_true, ht]
        simp only [COUNT] at *
        omega
      · have hlw : last_write (hist.length + 1) j.val = last_write hist.length j.val := by
          unfold last_write
          simp only [COUNT] at *
          omega
        have hlen : last_write hist.length j.val < hist.length := by
          unfold last_write
          omega
        rw [hlw, List.getElem?_append_left hlen]
        exact hkb
    · obtain ⟨he, ht⟩ := (hl j).2 (by omega)
      simp [aged, he, ht]

theorem round_robin_cache_cache {hist : List (List Char × List Char)} {cache : Cache}
    (h : round_robin hist cache) (uri buf : List Char) :
    cache_cache cache uri buf =
      some (admitted cache ⟨hist.length % COUNT, Nat.mod_lt _ (by decide)⟩ uri buf) := by
  obtain ⟨c1, hc1⟩ := Option.isSome_iff_exists.mp (cache_cache_isSome h.1 uri buf)
  obtain ⟨v, hv, hc⟩ := cache_cache_eq_some hc1
  rw [round_robin_evict h] at hv
  simp only [Option.some.injEq, Prod.mk.injEq, and_true] at hv
  rw [hc1, hc, ← hv]

theorem round_robin_cache_cache_all (ops : List (List Char × List Char)) :
    ∀ (hist : List (List Char × List Char)) (cache : Cache), round_robin hist cache →
      ∃ cache', cache_cache_all cache ops = some cache' ∧ round_robin (hist ++ ops) cache' := by
  induction ops with
  | nil =>
    intro hist cache h
    exact ⟨cache, rfl, by simpa using h⟩
  | cons op ops ih =>
    intro hist cache h
    obtain ⟨uri, buf⟩ := op
    obtain ⟨c2, hc2, hr⟩ := ih (hist ++ [(uri, buf)]) _ (round_robin_admitted h uri buf)
    refine ⟨c2, ?_, by simpa using hr⟩
    rw [cache_cache_all, round_robin_cache_cache h uri buf]
    exact hc2

theorem cache_find_eq {cache : Cache} (hu : unlocked cache) (url : List Char) :
    ∃ r : Int, cache_find cache url = some (r, cache) ∧
      ((r = -1 ∧ ∀ j : Fin COUNT, ¬ hit cache url j) ∨
        ∃ k : Fin COUNT, r = (k.val : Int) ∧ hit cache url k ∧
          ∀ j : Fin COUNT, j < k → ¬ hit cache url j) := by
  obtain ⟨p, hp⟩ := Option.isSome_iff_exists.mp (cache_find_loop_isSome url cache hu COUNT 0)
  obtain ⟨r, c1⟩ := p
  obtain ⟨hc, hs⟩ := cache_find_loop_spec url cache COUNT 0 r c1 (by simp) hp
  refine ⟨r, by rw [hc] at hp; exact hp, ?_⟩
  rcases hs with ⟨hr, hall⟩ | ⟨k, hk, -, hkhit, hlow⟩
  · exact Or.inl ⟨hr, fun j => hall j (Nat.zero_le _)⟩
  · exact Or.inr ⟨k, hk, hkhit, fun j hj => hlow j (Nat.zero_le _) hj⟩

theorem reachable_round_robin {s : Cache} (h : reachable s) : ∃ hist, round_robin hist s := by
  induction h with
  | init c0 => exact ⟨[], round_robin_init c0⟩
  | store uri buf _ hc ih =>
    obtain ⟨hist, hr⟩ := ih
    refine ⟨hist ++ [(uri, buf)], ?_⟩
    rw [round_robin_cache_cache hr uri buf] at hc
    simp only [Option.some.injEq] at hc
    rw [← hc]
    exact round_robin_admitted hr uri buf
  | find url r _ hc ih =>
    obtain ⟨hist, hr⟩ := ih
    have := (cache_find_loop_spec url _ COUNT 0 r _ (by simp) hc).1
    rw [this]
    exact ⟨hist, hr⟩

theorem nodup_keys_index {ops : List (List Char × List Char)}
    (hnodup : (ops.map Prod.fst).Nodup) {a b : Nat} {x y : List Char × List Char}
    (ha : ops[a]? = some x) (hb : ops[b]? = some y) (hxy : x.1 = y.1) : a = b := by
  obtain ⟨hal, hax⟩ := List.getElem?_eq_some_iff.mp ha
  obtain ⟨hbl, hby⟩ := List.getElem?_eq_some_iff.mp hb
  have hal2 : a < (ops.map Prod.fst).length := by simpa using hal
  have hbl2 : b < (ops.map Prod.fst).length := by simpa using hbl
  apply (@List.Nodup.getElem_inj_iff _ _ hnodup a hal2 b hbl2).mp
  simp only [List.getElem_map, hax, hby, hxy]

/-- C1: from the state produced by `cache_init`, the serial admission of any
`COUNT + 1` pairwise-distinct keys succeeds, and in the resulting cache
`cache_find` of the first key returns -1 while `cache_find` of each of the other
`COUNT` keys returns a non-negative index. -/
theorem C1_lru_after_count_plus_one (c0 : Cache) (ops : List (List Char × List Char))
    (hlen : ops.length = COUNT + 1) (hnodup : (ops.map Prod.fst).Nodup) :
    ∃ cache : Cache, cache_cache_all (cache_init c0) ops = some cache ∧
      ∀ (j : Nat) (kb : List Char × List Char), ops[j]? = some kb →
        ∃ r : Int, cache_find cache kb.1 = some (r, cache) ∧
          (j = 0 → r = -1) ∧ (1 ≤ j → 0 ≤ r) := by
  obtain ⟨cache, hadm, hrr⟩ := round_robin_cache_cache_all ops [] _ (round_robin_init c0)
  simp only [List.nil_append] at hrr
  refine ⟨cache, hadm, ?_⟩
  intro j kb hj
  obtain ⟨hu, hl⟩ := hrr
  have hjlt : j < ops.length := (List.getElem?_eq_some_iff.mp hj).1
  obtain ⟨r, hr, hs⟩ := cache_find_eq hu kb.1
  refine ⟨r, hr, ?_, ?_⟩
  · intro hj0
    rcases hs with ⟨hr1, -⟩ | ⟨k, -, hkhit, -⟩
    · exact hr1
    · exfalso
      have hklt := k.isLt
      obtain ⟨-, -, kb2, hkb2, hurl, -⟩ := (hl k).1 (by simp only [COUNT] at *; omega)
      have hidx := nodup_keys_index hnodup hj hkb2 (by rw [← hurl]; exact hkhit.2)
      unfold last_write at hidx
      simp only [COUNT] at *
      omega
  · intro hj1
    rcases hs with ⟨-, hall⟩ | ⟨k, hk, -, -⟩
    · exfalso
      have hslot : j % COUNT < COUNT := Nat.mod_lt _ (by decide)
      obtain ⟨he, -, kb2, hkb2, hurl, -⟩ :=
        (hl ⟨j % COUNT, hslot⟩).1 (by simp only [COUNT] at *; omega)
      have hlw : last_write ops.length (j % COUNT) = j := by
        unfold last_write
        simp only [COUNT] at *
        omega
      simp only [hlw, hj, Option.some.injEq] at hkb2
      subst hkb2
      exact hall ⟨j % COUNT, hslot⟩ ⟨he, hurl.symm⟩
    · omega

/-- Witness of C1 on the eleven keys "a" .. "k" and a blank cache. -/
theorem C1_lru_after_count_plus_one_witness :
    eleven_keys.length = COUNT + 1 ∧ (eleven_keys.map Prod.fst).Nodup ∧
    ∃ cache : Cache, cache_cache_all (cache_init cache_blank) eleven_keys = some cache ∧
      ∀ (j : Nat) (kb : List Char × List Char), eleven_keys[j]? = some kb →
        ∃ r : Int, cache_find cache kb.1 = some (r, cache) ∧
          (j = 0 → r = -1) ∧ (1 ≤ j → 0 ≤ r) :=
  ⟨by decide, by decide,
    C1_lru_after_count_plus_one cache_blank eleven_keys (by decide) (by decide)⟩

/-- C2, as stated, fails in two ways.  (a) After `cache_cache("k", "b")` on an
initialised cache, ten further admissions under other keys (none of them
re-admits "k") leave `cache_find("k")` a miss.  (b) When "k" is already cached
with other bytes at a lower line, `cache_cache("k", "b")` followed by no further
call at all leaves `cache_find("k")` at line 0, whose `cache_word` is not "b". -/
theorem C2_counterexample :
    (ten_others.filter (fun op => op.1 = ['k'])).length ≤ COUNT - 1 ∧
    (((cache_cache (cache_init cache_blank) ['k'] ['b']).bind
        (fun s => cache_cache_all s ten_others)).bind
      (fun s => (cache_find s ['k']).map Prod.fst) = some (-1)) ∧
    (((cache_cache (cache_init cache_blank) ['k'] ['x']).bind
        (fun s => cache_cache s ['k'] ['b'])).bind
      (fun s => (cache_find s ['k']).map (fun r => (r.1, (s ⟨0, by decide⟩).cache_word)))
        = some (0, ['x'])) := by
  refine ⟨by decide, by decide, by decide⟩

/-- C2 (amended): in every cache state reachable from `cache_init` by serial
operations, `cache_cache(k, b)` followed by at most `COUNT - 1` further
`cache_cache` calls succeeds and `cache_find(k)` then returns an index `i` (not
-1) of a non-empty line with key `k`, at or below the line `v` that
`cache_cache(k, b)` wrote, and line `v` still holds `k` and the first
`MAX_OBJECT_SIZE` bytes of `b`; when no non-empty line held `k` before and none
of the further calls admits `k`, the `cache_word` of line `i` is those bytes of
`b`. -/
theorem C2_cache_hit_identity (s : Cache) (k b : List Char)
    (ops : List (List Char × List Char))
    (hs : reachable s) (hlen : ops.length ≤ COUNT - 1) :
    ∃ (s1 s2 : Cache) (v i : Fin COUNT),
      cache_evict s = some (v, s) ∧
      cache_cache s k b = some s1 ∧ cache_cache_all s1 ops = some s2 ∧
      cache_find s2 k = some ((i.val : Int), s2) ∧
      (s2 i).empty = 0 ∧ (s2 i).cache_url = k ∧ i ≤ v ∧
      (s2 v).empty = 0 ∧ (s2 v).cache_url = k ∧
      (s2 v).cache_word = b.take MAX_OBJECT_SIZE ∧
      ((∀ j : Fin COUNT, ¬ ((s j).empty = 0 ∧ (s j).cache_url = k)) →
        (∀ op ∈ ops, op.1 ≠ k) → (s2 i).cache_word = b.take MAX_OBJECT_SIZE) := by
  obtain ⟨hist, hr⟩ := reachable_round_robin hs
  have hvlt : hist.length % COUNT < COUNT := Nat.mod_lt _ (by decide)
  have hr1 := round_robin_admitted hr k b
  obtain ⟨s2, hs2, hr2⟩ := round_robin_cache_cache_all ops _ _ hr1
  obtain ⟨hu2, hl2⟩ := hr2
  have hlenH : (hist ++ [(k, b)] ++ ops).length = hist.length + 1 + ops.length := by
    simp only [List.length_append, List.length_singleton]
  rw [hlenH] at hl2
  -- line v still holds (k, b)
  obtain ⟨hve, -, kbv, hkbv, hvurl, hvword⟩ :=
    (hl2 ⟨hist.length % COUNT, hvlt⟩).1 (by simp only [COUNT] at *; omega)
  have hlwv : last_write (hist.length + 1 + ops.length) (hist.length % COUNT) = hist.length := by
    unfold last_write
    simp only [COUNT] at *
    omega
  simp only [hlwv] at hkbv
  rw [List.getElem?_append_left (by simp), List.getElem?_concat_length] at hkbv
  simp only [Option.some.injEq] at hkbv
  subst hkbv
  simp only at hvurl hvword
  obtain ⟨r, hfind, hspec⟩ := cache_find_eq hu2 k
  rcases hspec with ⟨-, hall⟩ | ⟨i, hi, hihit, hlow⟩
  · exact absurd ⟨hve, hvurl.symm⟩ (hall ⟨hist.length % COUNT, hvlt⟩)
  · subst hi
    have hiv : i ≤ ⟨hist.length % COUNT, hvlt⟩ := by
      by_contra hlt
      exact hlow _ (not_le.mp hlt) ⟨hve, hvurl.symm⟩
    refine ⟨_, s2, ⟨hist.length % COUNT, hvlt⟩, i, round_robin_evict hr,
      round_robin_cache_cache hr k b, hs2, hfind, hihit.1, hihit.2.symm, hiv,
      hve, hvurl, hvword, ?_⟩
    intro hfresh hops
    have hilt := i.isLt
    have hiM : i.val < hist.length + 1 + ops.length := by
      by_contra hge
      have := ((hl2 i).2 (by omega)).1
      have := hihit.1
      omega
    obtain ⟨-, -, kbi, hkbi, hiurl, hiword⟩ := (hl2 i).1 hiM
    have hik : kbi.1 = k := by rw [← hiurl]; exact hihit.2.symm
    rcases Nat.lt_trichotomy (last_write (hist.length + 1 + ops.length) i.val) hist.length
      with hlt | heq | hgt
    · exfalso
      rw [List.append_assoc, List.getElem?_append_left hlt] at hkbi
      have hi_m : i.val < hist.length := by
        unfold last_write at hlt
        simp only [COUNT] at *
        omega
      obtain ⟨hse, -, kbs, hkbs, hsurl, -⟩ := (hr.2 i).1 hi_m
      have hsame : last_write hist.length i.val =
          last_write (hist.length + 1 + ops.length) i.val := by
        unfold last_write at hlt ⊢
        simp only [COUNT] at *
        omega
      rw [hsame, hkbi] at hkbs
      simp only [Option.some.injEq] at hkbs
      subst hkbs
      exact hfresh i ⟨hse, by rw [hsurl]; exact hik⟩
    · have hiv2 : i = ⟨hist.length % COUNT, hvlt⟩ := by
        apply Fin.ext
        unfold last_write at heq
        simp only [COUNT] at *
        omega
      rw [hiv2]
      exact hvword
    · exfalso
      rw [List.getElem?_append_right (by simp; omega)] at hkbi
      exact hops kbi (List.getElem?_mem hkbi) hik

/-- Witness of C7 on `cache_full_example` and the new key "z". -/
theorem C7_eviction_boundedness_witness :
    (∀ j : Fin COUNT, (cache_full_example j).empty = 0) ∧
    (∀ i j : Fin COUNT,
      (cache_full_example i).cache_url = (cache_full_example j).cache_url → i = j) ∧
    (∀ j : Fin COUNT, (cache_full_example j).cache_url ≠ ['z']) ∧
    ((unlocked cache_full_example → (cache_cache cache_full_example ['z'] ['x']).isSome) ∧
    ∀ cache' : Cache, cache_cache cache_full_example ['z'] ['x'] = some cache' →
      ∃ v : Fin COUNT, cache_evict cache_full_example = some (v, cache_full_example) ∧
        (∀ j : Fin COUNT,
          ((cache' j).cache_url, (cache' j).cache_word, (cache' j).empty) ≠
            ((cache_full_example j).cache_url, (cache_full_example j).cache_word,
              (cache_full_example j).empty) ↔ j = v) ∧
        (cache' v).cache_url = ['z'] ∧
        (cache' v).cache_word = (['x'] : List Char).take MAX_OBJECT_SIZE ∧
        (cache' v).empty = 0 ∧
        cached_keys cache' =
          insert ['z'] ((cached_keys cache_full_example).erase (cache_full_example v).cache_url) ∧
        (cached_keys cache_full_example).card = COUNT ∧
        (cached_keys cache').card = COUNT) :=
  ⟨by decide, by decide, by decide,
    C7_eviction_boundedness cache_full_example ['z'] ['x'] (by decide) (by decide) (by decide)⟩

/-- Witness of C2 (amended): from an initialised cache, store "k" and then "a". -/
theorem C2_cache_hit_identity_witness :
    reachable (cache_init cache_blank) ∧
    ([(['a'], ['y'])] : List (List Char × List Char)).length ≤ COUNT - 1 ∧
    ∃ (s1 s2 : Cache) (v i : Fin COUNT),
      cache_evict (cache_init cache_blank) = some (v, cache_init cache_blank) ∧
      cache_cache (cache_init cache_blank) ['k'] ['b'] = some s1 ∧
      cache_cache_all s1 [(['a'], ['y'])] = some s2 ∧
      cache_find s2 ['k'] = some ((i.val : Int), s2) ∧
      (s2 i).empty = 0 ∧ (s2 i).cache_url = ['k'] ∧ i ≤ v ∧
      (s2 v).empty = 0 ∧ (s2 v).cache_url = ['k'] ∧
      (s2 v).cache_word = (['b'] : List Char).take MAX_OBJECT_SIZE ∧
      ((∀ j : Fin COUNT,
          ¬ ((cache_init cache_blank j).empty = 0 ∧ (cache_init cache_blank j).cache_url = ['k'])) →
        (∀ op ∈ ([(['a'], ['y'])] : List (List Char × List Char)), op.1 ≠ ['k']) →
        (s2 i).cache_word = (['b'] : List Char).take MAX_OBJECT_SIZE) :=
  ⟨reachable.init cache_blank, by decide,
    C2_cache_hit_identity (cache_init cache_blank) ['k'] ['b'] [(['a'], ['y'])]
      (reachable.init cache_blank) (by decide)⟩

theorem strstr_append_of_not_mem (a : Char) (as : List Char) :
    ∀ (l r : List Char), a ∉ l →
      strstr (l ++ r) (a :: as) = (strstr r (a :: as)).map (fun pos => pos + l.length) := by
  intro l
  induction l with
  | nil => intro r _; simp
  | cons c l ih =>
    intro r h
    have hc : a ≠ c := fun e => h (by simp [e])
    have hl : a ∉ l := fun e => h (by simp [e])
    rw [List.cons_append, strstr]
    have hpre : (a :: as).isPrefixOf (c :: (l ++ r)) = false := by
      simp [List.isPrefixOf, hc]
    rw [hpre, ih r hl]
    simp only [Bool.false_eq_true, if_false, Option.map_map, List.length_cons]
    congr 1

theorem strstr_eq_none_of_not_infix (needle : List Char) :
    ∀ s : List Char, ¬ needle <:+: s → strstr s needle = none := by
  intro s
  induction s with
  | nil =>
    intro h
    have : needle ≠ [] := fun e => h (by rw [e])
    simp [strstr, this]
  | cons c s ih =>
    intro h
    have hpre : needle.isPrefixOf (c :: s) = false := by
      by_contra hp
      have hp2 : needle.isPrefixOf (c :: s) = true := by simpa using hp
      exact h (List.isPrefixOf_iff_prefix.mp hp2).isInfix
    have htail : ¬ needle <:+: s := fun hi => h (List.infix_cons hi)
    rw [strstr, hpre, ih htail]
    rfl

theorem isdigit_ne {c : Char} (h : isdigit c = true) :
    c ≠ '/' ∧ c ≠ ':' ∧ c ≠ '-' ∧ c ≠ '+' ∧ isspace c = false := by
  refine ⟨?_, ?_, ?_, ?_, ?_⟩
  · rintro rfl; revert h; decide
  · rintro rfl; revert h; decide
  · rintro rfl; revert h; decide
  · rintro rfl; revert h; decide
  · simp only [isdigit, Bool.and_eq_true, decide_eq_true_eq] at h
    simp only [isspace, Bool.or_eq_false_iff, decide_eq_false_iff_not, Bool.and_eq_false_imp,
      decide_eq_true_eq]
    omega

theorem takeWhile_append_stop (f : Char → Bool) (c : Char) (hc : f c = false) :
    ∀ (l r : List Char), (∀ x ∈ l, f x = true) →
      (l ++ c :: r).takeWhile f = l ∧ (l ++ c :: r).dropWhile f = c :: r := by
  intro l
  induction l with
  | nil => intro r _; simp [List.takeWhile, List.dropWhile, hc]
  | cons x l ih =>
    intro r h
    have hx : f x = true := h x (by simp)
    have := ih r (fun y hy => h y (by simp [hy]))
    simp [List.takeWhile, List.dropWhile, hx, this]

theorem takeWhile_all (f : Char → Bool) :
    ∀ l : List Char, (∀ x ∈ l, f x = true) → l.takeWhile f = l := by
  intro l
  induction l with
  | nil => intro _; rfl
  | cons x l ih =>
    intro h
    have hx : f x = true := h x (by simp)
    simp [List.takeWhile, hx, ih (fun y hy => h y (by simp [hy]))]

/-- A token read by `%s` is not empty and holds no white space. -/
theorem scan_s_token {buf w rest : List Char} (h : scan_s buf = some (w, rest)) :
    w ≠ [] ∧ ∀ c ∈ w, isspace c = false := by
  unfold scan_s at h
  simp only at h
  split_ifs at h with he
  simp only [Option.some.injEq, Prod.mk.injEq] at h
  refine ⟨by rw [← h.1]; exact he, fun c hc => ?_⟩
  rw [← h.1] at hc
  have := List.mem_takeWhile_imp hc
  simpa using this

theorem scan_d_digits (P p : List Char) (hP : P ≠ []) (hdig : ∀ c ∈ P, isdigit c = true)
    (hp : p.head? = some '/') :
    scan_d (P ++ p) = some (to_int (digits_value 0 P : Nat), p) := by
  obtain ⟨d, P1, rfl⟩ := List.exists_cons_of_ne_nil hP
  cases p with
  | nil => simp at hp
  | cons q p1 =>
    simp only [List.head?_cons, Option.some.injEq] at hp
    subst hp
    have hd := isdigit_ne (hdig d (by simp))
    have hstop : isdigit '/' = false := by decide
    obtain ⟨ht, hdr⟩ := takeWhile_append_stop isdigit '/' hstop (d :: P1) p1 hdig
    unfold scan_d
    have h1 : ((d :: P1) ++ '/' :: p1).dropWhile isspace = (d :: P1) ++ '/' :: p1 := by
      simp [List.dropWhile, hd.2.2.2.2]
    simp only [h1]
    simp only [List.cons_append, hd.2.2.1, hd.2.2.2.1, false_or, if_false, decide_False]
    rw [← List.cons_append, ht, hdr]
    simp

theorem sscanf_d_s_port_path (P p : List Char) (hP : P ≠ [])
    (hdig : ∀ c ∈ P, isdigit c = true) (hp : p.head? = some '/')
    (hsp : ∀ c ∈ p, isspace c = false) (port : Int) (filename : List Char) :
    sscanf_d_s (P ++ p) port filename = (to_int (digits_value 0 P : Nat), p) := by
  unfold sscanf_d_s
  rw [scan_d_digits P p hP hdig hp]
  have hne : p ≠ [] := by
    intro e; rw [e] at hp; simp at hp
  have hs : scan_s p = some (p, []) := by
    obtain ⟨q, p1, rfl⟩ := List.exists_cons_of_ne_nil hne
    have hq : isspace q = false := hsp q (by simp)
    have hall : ∀ x ∈ q :: p1, (fun c => !isspace c) x = true := by
      intro x hx; simp [hsp x hx]
    have htw := takeWhile_all (fun c => !isspace c) (q :: p1) hall
    unfold scan_s
    have h1 : (q :: p1).dropWhile isspace = q :: p1 := by simp [List.dropWhile, hq]
    simp only [h1, htw]
    have hdw : (q :: p1).dropWhile (fun c => !isspace c) = [] := by
      rw [List.dropWhile_eq_nil_iff]
      exact hall
    simp [hdw]
  simp only [hs]

theorem strstr_http_scheme (rest : List Char) :
    strstr (http_scheme ++ rest) ['/', '/'] = some 5 := by
  simp [http_scheme, strstr, List.isPrefixOf]

theorem strstr_no_scheme (l p : List Char) (hl : '/' ∉ l) (hdd : ¬ ['/', '/'] <:+: p) :
    strstr (l ++ p) ['/', '/'] = none := by
  rw [strstr_append_of_not_mem '/' ['/'] l p hl, strstr_eq_none_of_not_infix _ p hdd]
  rfl

theorem strstr_none_of_not_mem (a : Char) (l : List Char) (hl : a ∉ l) :
    strstr l [a] = none := by
  have := strstr_append_of_not_mem a [] l [] hl
  simpa [strstr] using this

/-- The steps of `parse_uri` after the scheme is stripped, on `h:P/p`. -/
theorem parse_uri_port_core (h P p : List Char) (hslash : '/' ∉ h) (hcolon : ':' ∉ h)
    (hdig : ∀ c ∈ P, isdigit c = true) (hp : p.head? = some '/') :
    strstr (h ++ [':'] ++ P ++ p) ['/'] = some (h.length + 1 + P.length) ∧
    strstr (h ++ [':'] ++ P ++ p) [':'] = some h.length ∧
    (h ++ [':'] ++ P ++ p).take h.length = h ∧
    (h ++ [':'] ++ P ++ p).drop (h.length + 1) = P ++ p ∧
    '/' ∉ h ++ [':'] ++ P := by
  have hnotin : '/' ∉ h ++ [':'] ++ P := by
    simp only [List.mem_append, List.mem_singleton, not_or]
    refine ⟨⟨hslash, by decide⟩, fun hm => (isdigit_ne (hdig _ hm)).1 rfl⟩
  obtain ⟨q, p1, rfl⟩ : ∃ q p1, p = q :: p1 := by
    cases p with
    | nil => simp at hp
    | cons q p1 => exact ⟨q, p1, rfl⟩
  simp only [List.head?_cons, Option.some.injEq] at hp
  subst hp
  refine ⟨?_, ?_, ?_, ?_, hnotin⟩
  · rw [strstr_append_of_not_mem '/' [] _ _ hnotin]
    simp [strstr, List.isPrefixOf]
    omega
  · rw [List.append_assoc, List.append_assoc,
      strstr_append_of_not_mem ':' [] h _ hcolon]
    simp [strstr, List.isPrefixOf]
  · rw [List.append_assoc, List.append_assoc, List.take_left]
  · rw [List.append_assoc, List.append_assoc]
    simp

theorem parse_uri_with_port (h P p hostname filename : List Char)
    (hslash : '/' ∉ h) (hcolon : ':' ∉ h)
    (hP : P ≠ []) (hdig : ∀ c ∈ P, isdigit c = true)
    (hp : p.head? = some '/') (hsp : ∀ c ∈ p, isspace c = false) :
    parse_uri (http_scheme ++ h ++ [':'] ++ P ++ p) hostname filename =
        (h, p, to_int (digits_value 0 P : Nat)) ∧
    (¬ ['/', '/'] <:+: p →
      parse_uri (h ++ [':'] ++ P ++ p) hostname filename =
        (h, p, to_int (digits_value 0 P : Nat))) := by
  obtain ⟨h1, h2, h3, h4, h5⟩ := parse_uri_port_core h P p hslash hcolon hdig hp
  constructor
  · have h0 : strstr (http_scheme ++ h ++ [':'] ++ P ++ p) ['/', '/'] = some 5 := by
      rw [List.append_assoc, List.append_assoc, List.append_assoc]
      exact strstr_http_scheme _
    have hd : (http_scheme ++ h ++ [':'] ++ P ++ p).drop (5 + 2) = h ++ [':'] ++ P ++ p := by
      simp [http_scheme]
    unfold parse_uri
    simp only [h0, hd, h1, h2, h3, h4, sscanf_d_s_port_path P p hP hdig hp hsp]
  · intro hdd
    have h0 : strstr (h ++ [':'] ++ P ++ p) ['/', '/'] = none :=
      strstr_no_scheme _ p h5 hdd
    unfold parse_uri
    simp only [h0, h1, h2, h3, h4, sscanf_d_s_port_path P p hP hdig hp hsp]

theorem parse_uri_without_port (h p hostname filename : List Char)
    (hslash : '/' ∉ h) (hcolon : ':' ∉ h) (hpc : ':' ∉ p) :
    parse_uri (http_scheme ++ h ++ p) hostname filename = (h ++ p, [], 80) ∧
    (¬ ['/', '/'] <:+: p →
      parse_uri (h ++ p) hostname filename = (h ++ p, [], 80)) := by
  have hc : strstr (h ++ p) [':'] = none :=
    strstr_none_of_not_mem ':' _ (by simp [hcolon, hpc])
  constructor
  · have h0 : strstr (http_scheme ++ h ++ p) ['/', '/'] = some 5 := by
      rw [List.append_assoc]
      exact strstr_http_scheme _
    have hd : (http_scheme ++ h ++ p).drop (5 + 2) = h ++ p := by
      simp [http_scheme]
    unfold parse_uri
    simp only [h0, hd, hc]
  · intro hdd
    have h0 : strstr (h ++ p) ['/', '/'] = none := strstr_no_scheme h p hslash hdd
    unfold parse_uri
    simp only [h0, hc]

theorem to_int_of_fits (n : Nat) (h : n ≤ 2147483647) : to_int (n : Int) = (n : Int) := by
  unfold to_int
  omega

/-- C8: for every host `h` without '/' and ':', every non-empty string `P` of
decimal digits whose value fits in an `int`, and every path `p` that begins
with '/' and holds no white space and no "//", `parse_uri` on `http://h:Pp`
and on `h:Pp` returns hostname `h`, filename `p` and port the value of `P`,
whatever the output buffers held before. -/
theorem C8_parse_uri_host_port_path (h P p hostname filename : List Char)
    (hslash : '/' ∉ h) (hcolon : ':' ∉ h)
    (hP : P ≠ []) (hdig : ∀ c ∈ P, isdigit c = true)
    (hfit : digits_value 0 P ≤ 2147483647)
    (hp : p.head? = some '/') (hsp : ∀ c ∈ p, isspace c = false)
    (hdd : ¬ ['/', '/'] <:+: p) :
    parse_uri (http_scheme ++ h ++ [':'] ++ P ++ p) hostname filename =
        (h, p, ((digits_value 0 P : Nat) : Int)) ∧
    parse_uri (h ++ [':'] ++ P ++ p) hostname filename =
        (h, p, ((digits_value 0 P : Nat) : Int)) := by
  obtain ⟨h1, h2⟩ := parse_uri_with_port h P p hostname filename hslash hcolon hP hdig hp hsp
  rw [to_int_of_fits _ hfit] at h1 h2
  exact ⟨h1, h2 hdd⟩

/-- Witness of C8 on "example.com", "8080", "/index.html". -/
theorem C8_parse_uri_host_port_path_witness :
    '/' ∉ example_host ∧ ':' ∉ example_host ∧ example_port ≠ [] ∧
    (∀ c ∈ example_port, isdigit c = true) ∧
    digits_value 0 example_port ≤ 2147483647 ∧
    example_path.head? = some '/' ∧ (∀ c ∈ example_path, isspace c = false) ∧
    ¬ ['/', '/'] <:+: example_path ∧
    digits_value 0 example_port = 8080 ∧
    (parse_uri (http_scheme ++ example_host ++ [':'] ++ example_port ++ example_path) [] [] =
        (example_host, example_path, ((digits_value 0 example_port : Nat) : Int)) ∧
      parse_uri (example_host ++ [':'] ++ example_port ++ example_path) [] [] =
        (example_host, example_path, ((digits_value 0 example_port : Nat) : Int))) :=
  ⟨by decide, by decide, by decide, by decide, by decide, by decide, by decide, by decide,
    by decide,
    C8_parse_uri_host_port_path example_host example_port example_path [] []
      (by decide) (by decide) (by decide) (by decide) (by decide) (by decide) (by decide)
      (by decide)⟩

/-- C9 fails on the code: on "http://example.com/index.html" and on
"example.com/index.html" `parse_uri` returns hostname "example.com/index.html",
filename "" and port 80.  The split into "example.com" and "/index.html" made
at lines 337-343 is overwritten at lines 348-349. -/
theorem C9_parse_uri_no_port_overwrites :
    ∀ hostname filename : List Char,
      parse_uri (http_scheme ++ example_host ++ example_path) hostname filename =
        (example_host ++ example_path, [], 80) ∧
      parse_uri (example_host ++ example_path) hostname filename =
        (example_host ++ example_path, [], 80) ∧
      example_host ++ example_path ≠ example_host ∧ example_path ≠ [] := by
  intro hostname filename
  obtain ⟨h1, h2⟩ := parse_uri_without_port example_host example_path hostname filename
    (by decide) (by decide) (by decide)
  exact ⟨h1, h2 (by decide), by decide, by decide⟩

/-- C10: for `h` without '/' and ':', `P` a non-empty string of decimal digits and
`p` beginning with '/' and without ':' and "//", the key `hostname ++ filename`
that `doit` builds from `parse_uri` is `h ++ p` for the URI tokens `http://h:Pp`,
`h:Pp` (a token being what `%s` reads from the request line), `http://hp` and
`hp`, and `h` for `http://h`: the scheme prefix and the port do not enter the
key. -/
theorem C10_cache_key_host_path (h P p hostname filename : List Char)
    (hslash : '/' ∉ h) (hcolon : ':' ∉ h)
    (hP : P ≠ []) (hdig : ∀ c ∈ P, isdigit c = true)
    (hp : p.head? = some '/') (hpc : ':' ∉ p) (hdd : ¬ ['/', '/'] <:+: p) :
    (∀ buf rest : List Char,
      scan_s buf = some (http_scheme ++ h ++ [':'] ++ P ++ p, rest) →
      doit_c_uri (http_scheme ++ h ++ [':'] ++ P ++ p) hostname filename = h ++ p) ∧
    (∀ buf rest : List Char,
      scan_s buf = some (h ++ [':'] ++ P ++ p, rest) →
      doit_c_uri (h ++ [':'] ++ P ++ p) hostname filename = h ++ p) ∧
    doit_c_uri (http_scheme ++ h ++ p) hostname filename = h ++ p ∧
    doit_c_uri (h ++ p) hostname filename = h ++ p ∧
    doit_c_uri (http_scheme ++ h) hostname filename = h := by
  obtain ⟨n1, n2⟩ := parse_uri_without_port h p hostname filename hslash hcolon hpc
  refine ⟨?_, ?_, ?_, ?_, ?_⟩
  · intro buf rest htok
    have hsp : ∀ c ∈ p, isspace c = false :=
      fun c hc => (scan_s_token htok).2 c (by simp [hc])
    unfold doit_c_uri
    rw [(parse_uri_with_port h P p hostname filename hslash hcolon hP hdig hp hsp).1]
  · intro buf rest htok
    have hsp : ∀ c ∈ p, isspace c = false :=
      fun c hc => (scan_s_token htok).2 c (by simp [hc])
    unfold doit_c_uri
    rw [(parse_uri_with_port h P p hostname filename hslash hcolon hP hdig hp hsp).2 hdd]
  · unfold doit_c_uri
    rw [n1]
    simp
  · unfold doit_c_uri
    rw [n2 hdd]
    simp
  · have := (parse_uri_without_port h [] hostname filename hslash hcolon (by simp)).1
    unfold doit_c_uri
    rw [List.append_nil] at this
    rw [this]
    simp

/-- Witness of C10 on "example.com", "8080" and "/index.html"; the two tokens
with a port are what `%s` reads from the rest of a request line. -/
theorem C10_cache_key_host_path_witness :
    '/' ∉ example_host ∧ ':' ∉ example_host ∧ example_port ≠ [] ∧
    (∀ c ∈ example_port, isdigit c = true) ∧
    example_path.head? = some '/' ∧ ':' ∉ example_path ∧
    ¬ ['/', '/'] <:+: example_path ∧
    scan_s ([' '] ++ (http_scheme ++ example_host ++ [':'] ++ example_port ++ example_path)
        ++ " HTTP/1.1".toList) =
      some (http_scheme ++ example_host ++ [':'] ++ example_port ++ example_path,
        " HTTP/1.1".toList) ∧
    scan_s ([' '] ++ (example_host ++ [':'] ++ example_port ++ example_path)
        ++ " HTTP/1.1".toList) =
      some (example_host ++ [':'] ++ example_port ++ example_path, " HTTP/1.1".toList) ∧
    ((∀ buf rest : List Char,
      scan_s buf =
        some (http_scheme ++ example_host ++ [':'] ++ example_port ++ example_path, rest) →
      doit_c_uri (http_scheme ++ example_host ++ [':'] ++ example_port ++ example_path) [] [] =
        example_host ++ example_path) ∧
    (∀ buf rest : List Char,
      scan_s buf = some (example_host ++ [':'] ++ example_port ++ example_path, rest) →
      doit_c_uri (example_host ++ [':'] ++ example_port ++ example_path) [] [] =
        example_host ++ example_path) ∧
    doit_c_uri (http_scheme ++ example_host ++ example_path) [] [] =
      example_host ++ example_path ∧
    doit_c_uri (example_host ++ example_path) [] [] = example_host ++ example_path ∧
    doit_c_uri (http_scheme ++ example_host) [] [] = example_host) ∧
    doit_c_uri "http://example.com/".toList [] [] = "example.com/".toList :=
  ⟨by decide, by decide, by decide, by decide, by decide, by decide, by decide, by decide,
    by decide,
    C10_cache_key_host_path example_host example_port example_path [] []
      (by decide) (by decide) (by decide) (by decide) (by decide) (by decide) (by decide),
    by decide⟩

theorem strstr_isSome_iff (needle : List Char) :
    ∀ s : List Char, (strstr s needle).isSome ↔ needle <:+: s := by
  intro s
  constructor
  · intro h
    by_contra hn
    rw [ strstr_eq_none_of_not_infix needle s hn] at h
    simp at h
  · induction s with
    | nil =>
      intro h
      have : needle = [] := List.eq_nil_of_infix_nil h
      simp [strstr, this]
    | cons c s ih =>
      intro h
      rw [strstr]
      by_cases hp : needle.isPrefixOf (c :: s) = true
      · simp [hp]
      · have hp2 : ¬ needle <+: c :: s := fun hpre => hp (List.isPrefixOf_iff_prefix.mpr hpre)
        rcases List.infix_cons_iff.mp h with h1 | h1
        · exact absurd h1 hp2
        · have := ih h1
          simp only [hp, if_false, Bool.false_eq_true]
          simpa using this

theorem c_string_of_not_mem {buf : List Char} (h : Char.ofNat 0 ∉ buf) : c_string buf = buf := by
  unfold c_string
  rw [List.takeWhile_eq_self_iff]
  intro c hc
  have : c ≠ Char.ofNat 0 := fun e => h (e ▸ hc)
  simpa using this

theorem build_header_loop_eq :
    ∀ (rio : List (List Char)) (reqhdr : List Char),
      build_header_loop rio reqhdr = reqhdr ++ (retained_lines rio).flatten := by
  intro rio
  induction rio with
  | nil => intro reqhdr; simp [build_header_loop, retained_lines]
  | cons buf rio ih =>
    intro reqhdr
    rw [build_header_loop]
    by_cases h0 : buf = []
    · subst h0
      simp [retained_lines]
    · have hlen : buf.length > 0 := List.length_pos.mpr h0
      simp only [hlen, if_true]
      by_cases h1 : c_string buf = crlf
      · simp [h1, retained_lines]
      · have htw : (buf :: rio).takeWhile
              (fun b => decide (b ≠ []) && decide (c_string b ≠ crlf)) =
            buf :: rio.takeWhile (fun b => decide (b ≠ []) && decide (c_string b ≠ crlf)) := by
          simp [List.takeWhile, h0, h1]
        simp only [h1, if_false, retained_lines, htw, List.map_cons, List.filter_cons]
        cases hH : strstr (c_string buf) host_field <;>
          cases hU : strstr (c_string buf) user_agent_field <;>
          cases hC : strstr (c_string buf) connection_field <;>
          cases hP : strstr (c_string buf) proxy_connection_field <;>
          simp [ih, retained_lines]

theorem retained_lines_mem {rio : List (List Char)} {l : List Char}
    (h : l ∈ retained_lines rio) :
    (∃ buf ∈ rio, c_string buf = l) ∧ strstr l host_field = none ∧
      strstr l user_agent_field = none ∧
      strstr l connection_field = none ∧ strstr l proxy_connection_field = none := by
  unfold retained_lines at h
  obtain ⟨h1, h2⟩ := List.mem_filter.mp h
  obtain ⟨buf, hb, hl⟩ := List.mem_map.mp h1
  refine ⟨⟨buf, (List.takeWhile_prefix _).subset hb, hl⟩, ?_⟩
  simpa [Option.isNone_iff_eq_none, and_assoc] using h2

theorem lines_from_line (rest : List Char) :
    ∀ (body cur : List Char), Char.ofNat 10 ∉ body →
      lines_from (body ++ Char.ofNat 10 :: rest) cur =
        (cur ++ body ++ [Char.ofNat 10]) :: lines_from rest [] := by
  intro body
  induction body with
  | nil => intro cur _; simp [lines_from]
  | cons c body ih =>
    intro cur h
    have hc : c ≠ Char.ofNat 10 := fun e => h (by simp [e])
    have hb : Char.ofNat 10 ∉ body := fun e => h (by simp [e])
    rw [List.cons_append, lines_from, if_neg hc, ih _ hb]
    simp

theorem lines_of_join :
    ∀ ls : List (List Char), (∀ l ∈ ls, is_line l) → lines_of ls.flatten = ls := by
  intro ls
  induction ls with
  | nil => intro _; simp [lines_of, lines_from]
  | cons l ls ih =>
    intro h
    obtain ⟨body, hl, hb⟩ := h l (by simp)
    have := ih (fun x hx => h x (by simp [hx]))
    unfold lines_of at this ⊢
    rw [List.flatten_cons, hl, List.append_assoc, List.singleton_append,
      lines_from_line _ body [] hb, this]
    simp

theorem build_header_eq (rio : List (List Char)) (hostname filename port : List Char) :
    build_header rio hostname filename port =
      (request_line filename :: (retained_lines rio ++
        [host_line hostname port, user_agent_header, conn_header, prox_header, crlf])).flatten := by
  unfold build_header
  simp only [build_header_loop_eq, request_line, host_line, List.flatten_cons,
    List.flatten_append, List.flatten_nil, List.append_nil, List.append_assoc]

theorem retained_lines_of_not_mem (rio : List (List Char))
    (h : ∀ buf ∈ rio, Char.ofNat 0 ∉ buf) :
    retained_lines rio =
      (rio.takeWhile (fun buf => decide (buf ≠ []) && decide (buf ≠ crlf))).filter
        (fun l => (strstr l host_field).isNone && (strstr l user_agent_field).isNone &&
          (strstr l connection_field).isNone && (strstr l proxy_connection_field).isNone) := by
  unfold retained_lines
  have hmap : ∀ ls : List (List Char), (∀ buf ∈ ls, Char.ofNat 0 ∉ buf) →
      ls.map c_string = ls := by
    intro ls hls
    conv_rhs => rw [← List.map_id ls]
    exact List.map_congr_left (fun buf hb => c_string_of_not_mem (hls buf hb))
  have htw : rio.takeWhile (fun buf => decide (buf ≠ []) && decide (c_string buf ≠ crlf)) =
      rio.takeWhile (fun buf => decide (buf ≠ []) && decide (buf ≠ crlf)) := by
    induction rio with
    | nil => rfl
    | cons a rio ih =>
      have ha : c_string a = a := c_string_of_not_mem (h a (by simp))
      simp only [List.takeWhile_cons, ha, ih (fun buf hb => h buf (by simp [hb]))]
  rw [htw, hmap]
  intro buf hb
  exact h buf ((List.takeWhile_prefix _).subset hb)

theorem not_prefix_of_strstr_none {needle l : List Char} (h : strstr l needle = none) :
    needle.isPrefixOf l = false := by
  by_contra hp
  have hp2 : needle.isPrefixOf l = true := by simpa using hp
  have := (strstr_isSome_iff needle l).mpr (List.isPrefixOf_iff_prefix.mp hp2).isInfix
  rw [h] at this
  simp at this

theorem not_prefix_of_head_ne (a b : Char) (as bs : List Char) (h : a ≠ b) :
    (a :: as).isPrefixOf (b :: bs) = false := by
  simp [List.isPrefixOf, h]

theorem is_line_request_line {filename : List Char} (hf : Char.ofNat 10 ∉ filename) :
    is_line (request_line filename) := by
  refine ⟨"GET ".toList ++ filename ++ " HTTP/1.0".toList ++ [Char.ofNat 13], ?_, ?_⟩
  · simp [request_line, crlf]
  · simp only [List.mem_append, not_or]
    exact ⟨⟨⟨by decide, hf⟩, by decide⟩, by decide⟩

theorem is_line_host_line {hostname port : List Char} (hh : Char.ofNat 10 ∉ hostname)
    (hp : Char.ofNat 10 ∉ port) : is_line (host_line hostname port) := by
  refine ⟨"Host: ".toList ++ hostname ++ [':'] ++ port ++ [Char.ofNat 13], ?_, ?_⟩
  · simp [host_line, crlf]
  · simp only [List.mem_append, not_or]
    exact ⟨⟨⟨⟨by decide, hh⟩, by decide⟩, hp⟩, by decide⟩

theorem is_line_fixed :
    is_line user_agent_header ∧ is_line conn_header ∧ is_line prox_header ∧ is_line crlf := by
  refine ⟨⟨user_agent_header.dropLast, by decide, by decide⟩,
    ⟨conn_header.dropLast, by decide, by decide⟩,
    ⟨prox_header.dropLast, by decide, by decide⟩,
    ⟨crlf.dropLast, by decide, by decide⟩⟩

/-- The lines of the request that `build_header` produces. -/
theorem lines_of_build_header (rio : List (List Char)) (hostname filename port : List Char)
    (hrio : ∀ l ∈ retained_lines rio, is_line l) (hh : Char.ofNat 10 ∉ hostname)
    (hf : Char.ofNat 10 ∉ filename) (hp : Char.ofNat 10 ∉ port) :
    lines_of (build_header rio hostname filename port) =
      request_line filename :: (retained_lines rio ++
        [host_line hostname port, user_agent_header, conn_header, prox_header, crlf]) := by
  rw [build_header_eq]
  apply lines_of_join
  intro l hl
  simp only [List.mem_cons, List.mem_append, List.mem_singleton, List.not_mem_nil,
    or_false] at hl
  rcases hl with rfl | hl | rfl | rfl | rfl | rfl | rfl
  · exact is_line_request_line hf
  · exact hrio l hl
  · exact is_line_host_line hh hp
  · exact is_line_fixed.1
  · exact is_line_fixed.2.1
  · exact is_line_fixed.2.2.1
  · exact is_line_fixed.2.2.2

theorem filter_retained_nil (rio : List (List Char)) (needle : List Char)
    (h : ∀ l ∈ retained_lines rio, strstr l needle = none) :
    (retained_lines rio).filter (fun l => needle.isPrefixOf l) = [] := by
  rw [List.filter_eq_nil_iff]
  intro l hl
  simp [not_prefix_of_strstr_none (h l hl)]

theorem retained_lines_nul_line : retained_lines [nul_line, crlf] = ["X: y".toList] := by
  decide

/-- C11, as stated, fails: `nul_line` is a header line (it ends in its one LF and
its field name is X) with a NUL byte in its value, it is followed by the blank
line, and the request that `build_header` produces has no line beginning with
"Host:": `strstr` and `sprintf` stop at the NUL byte, so the line enters without
its line end and the Host field is appended to it. -/
theorem C11_counterexample :
    is_line nul_line ∧ field_name nul_line = ['X'] ∧
    lines_of (build_header [nul_line, crlf] example_host example_path example_port) =
      [request_line example_path, "X: yHost: example.com:8080".toList ++ crlf,
       user_agent_header, conn_header, prox_header, crlf] ∧
    (lines_of (build_header [nul_line, crlf] example_host example_path example_port)).filter
      (fun l => host_field.isPrefixOf l) = [] := by
  have hb : build_header [nul_line, crlf] example_host example_path example_port =
      ([request_line example_path, "X: yHost: example.com:8080".toList ++ crlf,
        user_agent_header, conn_header, prox_header, crlf]).flatten := by
    have hx : "X: y".toList ++ host_line example_host example_port =
        "X: yHost: example.com:8080".toList ++ crlf := by decide
    rw [build_header_eq, retained_lines_nul_line, ← hx]
    simp only [List.flatten_cons, List.flatten_nil, List.cons_append, List.nil_append,
      List.append_nil, List.append_assoc]
  have hl : lines_of (build_header [nul_line, crlf] example_host example_path example_port) =
      [request_line example_path, "X: yHost: example.com:8080".toList ++ crlf,
       user_agent_header, conn_header, prox_header, crlf] := by
    rw [hb]
    apply lines_of_join
    intro l hl
    simp only [List.mem_cons, List.mem_singleton, List.not_mem_nil, or_false] at hl
    rcases hl with rfl | rfl | rfl | rfl | rfl | rfl
    · exact is_line_request_line (by decide)
    · exact ⟨"X: yHost: example.com:8080".toList ++ [Char.ofNat 13], by decide, by decide⟩
    · exact is_line_fixed.1
    · exact is_line_fixed.2.1
    · exact is_line_fixed.2.2.1
    · exact is_line_fixed.2.2.2
  refine ⟨⟨nul_line.dropLast, by decide, by decide⟩, by decide, hl, ?_⟩
  rw [hl]
  decide

/-- C11 (amended): for every list of client header lines of which each one that
`build_header` keeps (a line before the blank line with none of the needles) is
kept with its line end (the bytes up to its first NUL byte end in its one LF; so
it is for a line that holds no NUL byte), and for every host, port and path
without LF, the request that `build_header` produces has exactly one line
beginning with "Host:", one beginning with "User-Agent:", one beginning with
"Connection:" and one beginning with "Proxy-Connection:", and they are
`Host: <host>:<port>`, `user_agent_header`, `Connection: close` and
`Proxy-Connection: close`. -/
theorem C11_header_hygiene (rio : List (List Char)) (hostname filename port : List Char)
    (hrio : ∀ l ∈ retained_lines rio, is_line l) (hh : Char.ofNat 10 ∉ hostname)
    (hf : Char.ofNat 10 ∉ filename) (hp : Char.ofNat 10 ∉ port) :
    (lines_of (build_header rio hostname filename port)).filter
        (fun l => host_field.isPrefixOf l) =
      ["Host: ".toList ++ hostname ++ [':'] ++ port ++ crlf] ∧
    (lines_of (build_header rio hostname filename port)).filter
        (fun l => user_agent_field.isPrefixOf l) = [user_agent_header] ∧
    (lines_of (build_header rio hostname filename port)).filter
        (fun l => connection_field.isPrefixOf l) = ["Connection: close".toList ++ crlf] ∧
    (lines_of (build_header rio hostname filename port)).filter
        (fun l => proxy_connection_field.isPrefixOf l) =
      ["Proxy-Connection: close".toList ++ crlf] := by
  rw [lines_of_build_header rio hostname filename port hrio hh hf hp]
  have hreq : ∀ (a : Char) (as : List Char), a ≠ 'G' →
      (a :: as).isPrefixOf (request_line filename) = false :=
    fun a as ha => not_prefix_of_head_ne a 'G' as _ ha
  have hhost : ∀ (a : Char) (as : List Char), a ≠ 'H' →
      (a :: as).isPrefixOf (host_line hostname port) = false :=
    fun a as ha => not_prefix_of_head_ne a 'H' as _ ha
  have hhost2 : host_field.isPrefixOf (host_line hostname port) = true := by
    rw [List.isPrefixOf_iff_prefix]
    exact ⟨[' '] ++ hostname ++ [':'] ++ port ++ crlf, by simp [host_line, host_field]⟩
  refine ⟨?_, ?_, ?_, ?_⟩
  · rw [List.filter_cons, List.filter_append,
      filter_retained_nil rio host_field (fun l hl => (retained_lines_mem hl).2.1)]
    have h1 : host_field.isPrefixOf (request_line filename) = false := hreq 'H' _ (by decide)
    simp only [h1, Bool.false_eq_true, if_false, List.nil_append, List.filter_cons, hhost2,
      if_true, List.filter_nil]
    have : host_field.isPrefixOf user_agent_header = false ∧
        host_field.isPrefixOf conn_header = false ∧
        host_field.isPrefixOf prox_header = false ∧
        host_field.isPrefixOf crlf = false := by decide
    simp [this, host_line]
  · rw [List.filter_cons, List.filter_append,
      filter_retained_nil rio user_agent_field (fun l hl => (retained_lines_mem hl).2.2.1)]
    have h1 : user_agent_field.isPrefixOf (request_line filename) = false :=
      hreq 'U' _ (by decide)
    have h2 : user_agent_field.isPrefixOf (host_line hostname port) = false :=
      hhost 'U' _ (by decide)
    have : user_agent_field.isPrefixOf user_agent_header = true ∧
        user_agent_field.isPrefixOf conn_header = false ∧
        user_agent_field.isPrefixOf prox_header = false ∧
        user_agent_field.isPrefixOf crlf = false := by decide
    simp [h1, h2, this, List.filter_cons]
  · rw [List.filter_cons, List.filter_append,
      filter_retained_nil rio connection_field (fun l hl => (retained_lines_mem hl).2.2.2.1)]
    have h1 : connection_field.isPrefixOf (request_line filename) = false :=
      hreq 'C' _ (by decide)
    have h2 : connection_field.isPrefixOf (host_line hostname port) = false :=
      hhost 'C' _ (by decide)
    have : connection_field.isPrefixOf user_agent_header = false ∧
        connection_field.isPrefixOf conn_header = true ∧
        connection_field.isPrefixOf prox_header = false ∧
        connection_field.isPrefixOf crlf = false := by decide
    simp [h1, h2, this, List.filter_cons]
    rfl
  · rw [List.filter_cons, List.filter_append,
      filter_retained_nil rio proxy_connection_field
        (fun l hl => (retained_lines_mem hl).2.2.2.2)]
    have h1 : proxy_connection_field.isPrefixOf (request_line filename) = false :=
      hreq 'P' _ (by decide)
    have h2 : proxy_connection_field.isPrefixOf (host_line hostname port) = false :=
      hhost 'P' _ (by decide)
    have : proxy_connection_field.isPrefixOf user_agent_header = false ∧
        proxy_connection_field.isPrefixOf conn_header = false ∧
        proxy_connection_field.isPrefixOf prox_header = true ∧
        proxy_connection_field.isPrefixOf crlf = false := by decide
    simp [h1, h2, this, List.filter_cons]
    rfl

theorem sample_headers_retained : ∀ l ∈ retained_lines sample_headers, is_line l := by
  have h : retained_lines sample_headers = ["Accept: text/html".toList ++ crlf] := by decide
  rw [h]
  intro l hl
  simp only [List.mem_singleton] at hl
  subst hl
  exact ⟨_, (List.dropLast_append_getLast (by decide)).symm, by decide⟩

/-- Witness of C11 on `sample_headers`, "example.com", "/index.html" and "8080". -/
theorem C11_header_hygiene_witness :
    (∀ l ∈ retained_lines sample_headers, is_line l) ∧ Char.ofNat 10 ∉ example_host ∧
    Char.ofNat 10 ∉ example_path ∧ Char.ofNat 10 ∉ example_port ∧
    ((lines_of (build_header sample_headers example_host example_path example_port)).filter
        (fun l => host_field.isPrefixOf l) =
      ["Host: ".toList ++ example_host ++ [':'] ++ example_port ++ crlf] ∧
    (lines_of (build_header sample_headers example_host example_path example_port)).filter
        (fun l => user_agent_field.isPrefixOf l) = [user_agent_header] ∧
    (lines_of (build_header sample_headers example_host example_path example_port)).filter
        (fun l => connection_field.isPrefixOf l) = ["Connection: close".toList ++ crlf] ∧
    (lines_of (build_header sample_headers example_host example_path example_port)).filter
        (fun l => proxy_connection_field.isPrefixOf l) =
      ["Proxy-Connection: close".toList ++ crlf]) :=
  ⟨sample_headers_retained, by decide, by decide, by decide,
    C11_header_hygiene sample_headers example_host example_path example_port
      sample_headers_retained (by decide) (by decide) (by decide)⟩

/-- C12, as stated, fails, in two ways.  The field name of "X-Forwarded-Host: a"
is none of Host, User-Agent, Connection, Proxy-Connection, the line precedes the
blank line, and `build_header` leaves it out: the request is the one built
without that line.  The field name of `nul_line` is X, the line precedes the
blank line, and `build_header` copies only its four bytes "X: y" before the NUL
byte, not the line. -/
theorem C12_counterexample :
    field_name forwarded_host_line = "X-Forwarded-Host".toList ∧
    field_name forwarded_host_line ∉
      ["Host".toList, "User-Agent".toList, "Connection".toList, "Proxy-Connection".toList] ∧
    build_header [forwarded_host_line, crlf] example_host example_path example_port =
      build_header [crlf] example_host example_path example_port ∧
    build_header_loop [forwarded_host_line, crlf] [] = [] ∧
    field_name nul_line = ['X'] ∧
    field_name nul_line ∉
      ["Host".toList, "User-Agent".toList, "Connection".toList, "Proxy-Connection".toList] ∧
    build_header_loop [nul_line, crlf] [] = "X: y".toList ∧
    build_header_loop [nul_line, crlf] [] ≠ nul_line := by
  refine ⟨by decide, by decide, ?_, by decide, by decide, by decide, by decide, by decide⟩
  rw [build_header_eq, build_header_eq]
  have h : retained_lines [forwarded_host_line, crlf] = retained_lines [crlf] := by decide
  rw [h]

/-- C12 (amended): of every client header line `build_header` sees the C string,
the bytes before the first NUL byte, which is the whole line when the line holds
no NUL byte.  It copies, in order, the C strings of exactly those lines before
the blank line (the first line whose C string is CR LF, or the end of input) in
whose C string none of "Host:", "User-Agent:" and "Connection:" occurs anywhere
as a substring; a line in whose C string one of them occurs is left out,
whatever its field name. -/
theorem C12_passthrough_by_substring (rio : List (List Char)) (reqhdr : List Char) :
    build_header_loop rio reqhdr =
      reqhdr ++ (((rio.takeWhile
          (fun buf => decide (buf ≠ []) && decide (c_string buf ≠ crlf))).map c_string).filter
        (fun l => decide (¬ host_field <:+: l ∧ ¬ user_agent_field <:+: l ∧
          ¬ connection_field <:+: l))).flatten ∧
    (∀ buf : List Char, Char.ofNat 0 ∉ buf → c_string buf = buf) := by
  refine ⟨?_, fun _ h => c_string_of_not_mem h⟩
  rw [build_header_loop_eq]
  congr 2
  unfold retained_lines
  apply List.filter_congr
  intro buf _
  have hpc : proxy_connection_field <:+: buf → connection_field <:+: buf := by
    intro h
    have hsub : connection_field <:+: proxy_connection_field := ⟨"Proxy-".toList, [], by decide⟩
    exact hsub.trans h
  have e1 := strstr_isSome_iff host_field buf
  have e2 := strstr_isSome_iff user_agent_field buf
  have e3 := strstr_isSome_iff connection_field buf
  have e4 := strstr_isSome_iff proxy_connection_field buf
  by_cases i1 : host_field <:+: buf <;> by_cases i2 : user_agent_field <:+: buf <;>
    by_cases i3 : connection_field <:+: buf <;>
    by_cases i4 : proxy_connection_field <:+: buf <;>
    simp only [i1, i2, i3, i4, iff_true, iff_false, Bool.not_eq_true,
      Option.not_isSome, Option.isNone_iff_eq_none] at e1 e2 e3 e4 <;>
    first
      | exact absurd (hpc i4) i3
      | simp [i1, i2, i3, e1, e2, e3, e4]

/-- C13, as stated, fails: for the client lines `nul_line` and the blank line the
buffer holds, between the request line and the Host line, the four bytes "X: y"
of `nul_line` before its NUL byte.  It is neither the concatenation with that
line retained nor the one with that line left out. -/
theorem C13_counterexample :
    build_header [nul_line, crlf] example_host example_path example_port =
      request_line example_path ++ "X: y".toList ++ host_line example_host example_port ++
        user_agent_header ++ conn_header ++ prox_header ++ crlf ∧
    build_header [nul_line, crlf] example_host example_path example_port ≠
      request_line example_path ++ nul_line ++ host_line example_host example_port ++
        user_agent_header ++ conn_header ++ prox_header ++ crlf ∧
    build_header [nul_line, crlf] example_host example_path example_port ≠
      request_line example_path ++ host_line example_host example_port ++
        user_agent_header ++ conn_header ++ prox_header ++ crlf := by
  have hb : build_header [nul_line, crlf] example_host example_path example_port =
      request_line example_path ++ "X: y".toList ++ host_line example_host example_port ++
        user_agent_header ++ conn_header ++ prox_header ++ crlf := by
    rw [build_header_eq, retained_lines_nul_line]
    simp only [List.flatten_cons, List.flatten_nil, List.cons_append, List.nil_append,
      List.append_nil, List.append_assoc]
  refine ⟨hb, ?_, ?_⟩
  · rw [hb]
    simp only [List.append_assoc, List.append_cancel_left_eq]
    decide
  · rw [hb]
    simp only [List.append_assoc, List.append_cancel_left_eq]
    decide

/-- C13 (amended): for every host, port string, path and list of client header
lines the buffer `build_header` produces is "GET <path> HTTP/1.0" CR LF, the
retained client header lines, each as its bytes before its first NUL byte (the
whole line when it holds none), "Host: <host>:<port>" CR LF,
`user_agent_header`, "Connection: close" CR LF, "Proxy-Connection: close" CR LF
and a final CR LF, in this order; the version in the request line is the
constant HTTP/1.0; and the lines after the client's blank line do not enter the
buffer. -/
theorem C13_build_header_layout (rio : List (List Char))
    (hostname filename port : List Char) :
    build_header rio hostname filename port =
      "GET ".toList ++ filename ++ " HTTP/1.0".toList ++ crlf ++
        (retained_lines rio).flatten ++
        ("Host: ".toList ++ hostname ++ [':'] ++ port ++ crlf) ++
        user_agent_header ++
        ("Connection: close".toList ++ crlf) ++
        ("Proxy-Connection: close".toList ++ crlf) ++ crlf ∧
    ((∀ buf ∈ rio, Char.ofNat 0 ∉ buf) →
      retained_lines rio =
        (rio.takeWhile (fun buf => decide (buf ≠ []) && decide (buf ≠ crlf))).filter
          (fun l => (strstr l host_field).isNone && (strstr l user_agent_field).isNone &&
            (strstr l connection_field).isNone && (strstr l proxy_connection_field).isNone)) ∧
    ∀ pre body : List (List Char),
      build_header (pre ++ crlf :: body) hostname filename port =
        build_header (pre ++ [crlf]) hostname filename port := by
  refine ⟨?_, retained_lines_of_not_mem rio, ?_⟩
  · rw [build_header_eq]
    simp only [request_line, host_line, conn_header, prox_header, List.flatten_cons,
      List.flatten_append, List.flatten_nil, List.append_nil, List.append_assoc]
  · intro pre body
    have hret : retained_lines (pre ++ crlf :: body) = retained_lines (pre ++ [crlf]) := by
      unfold retained_lines
      congr 2
      have hc : c_string crlf = crlf := by decide
      induction pre with
      | nil => simp [List.takeWhile, hc]
      | cons a pre ih =>
        simp only [List.cons_append, List.takeWhile_cons, ih]
    rw [build_header_eq, build_header_eq, hret]

theorem rd_enter_cache_word {c c1 : cache_line} (h : rd_enter c = some c1) :
    c1.cache_word = c.cache_word := by
  unfold rd_enter P at h
  simp only at h
  split_ifs at h
  all_goals
    simp only [Option.some.injEq] at h
    subst h
    rfl

theorem doit_copy_loop_events (fd_client : Int) :
    ∀ (rio : List (List Char)) (cachebuf : List Char) (sizebuf : Nat) (ev : List io_event),
      (doit_copy_loop fd_client rio cachebuf sizebuf ev).2.2 = ev ++ forwarded fd_client rio := by
  intro rio
  induction rio with
  | nil => intro cachebuf sizebuf ev; simp [doit_copy_loop, forwarded]
  | cons buf rio ih =>
    intro cachebuf sizebuf ev
    rw [doit_copy_loop]
    by_cases h0 : buf = []
    · simp [h0, forwarded]
    · have hlen : buf.length ≠ 0 := fun e => h0 (List.length_eq_zero.mp e)
      have hf : forwarded fd_client (buf :: rio) =
          io_event.written fd_client buf :: forwarded fd_client rio := by
        simp [forwarded, List.takeWhile, h0]
      simp only [hlen, if_false]
      split_ifs <;> simp [ih, hf]

theorem doit_copy_loop_size (fd_client : Int) :
    ∀ (rio : List (List Char)) (cachebuf : List Char) (sizebuf : Nat) (ev : List io_event),
      sizebuf ≤ MAX_OBJECT_SIZE →
      (doit_copy_loop fd_client rio cachebuf sizebuf ev).2.1 ≤ MAX_OBJECT_SIZE := by
  intro rio
  induction rio with
  | nil => intro cachebuf sizebuf ev h; simpa [doit_copy_loop] using h
  | cons buf rio ih =>
    intro cachebuf sizebuf ev h
    rw [doit_copy_loop]
    split_ifs with h0 h1
    · exact h
    · exact ih _ _ _ h1
    · exact ih _ _ _ h

theorem rd_enter_of_unlocked {c : cache_line} (h : line_unlocked c) :
    ∃ c1, rd_enter c = some c1 ∧ rd_exit c1 = some c ∧ c1.cache_word = c.cache_word := by
  obtain ⟨c1, hc1⟩ := Option.isSome_iff_exists.mp (rd_enter_unlocked h)
  exact ⟨c1, hc1, (rd_enter_exit hc1).1, rd_enter_cache_word hc1⟩

/-- The request line is refused: lines 251-256. -/
theorem doit_refused (cache : Cache) (fd_client : Int) (buf : List Char)
    (rio : List (List Char)) (stack : doit_stack)
    (net : List Char → List Char → Int × List (List Char))
    (method uri version : List Char) (hbuf : buf ≠ [])
    (htok : sscanf_s_s_s (c_string buf) stack.method stack.uri stack.version =
      (method, uri, version))
    (hcond : strcasecmp method "GET".toList ≠ 0 ∨ (strstr uri "https".toList).isSome) :
    doit cache fd_client (buf :: rio) stack net =
      some (cache, clienterror fd_client method "501".toList "Not Implemented".toList
        "Tiny does not implement this method".toList) := by
  have hlen : buf.length ≠ 0 := fun e => hbuf (List.length_eq_zero.mp e)
  unfold doit
  simp only [hlen, if_false, htok]
  rw [if_pos hcond]

/-- The request line is accepted and the lookup hits line `i`: lines 258-281. -/
theorem doit_hit (cache : Cache) (fd_client : Int) (buf : List Char)
    (rio : List (List Char)) (stack : doit_stack)
    (net : List Char → List Char → Int × List (List Char))
    (method uri version : List Char) (hbuf : buf ≠ [])
    (htok : sscanf_s_s_s (c_string buf) stack.method stack.uri stack.version =
      (method, uri, version))
    (hcond : ¬ (strcasecmp method "GET".toList ≠ 0 ∨ (strstr uri "https".toList).isSome))
    (hu : unlocked cache) (i : Fin COUNT)
    (hfind : cache_find cache (doit_c_uri uri stack.hostname stack.filename) =
      some ((i.val : Int), cache)) :
    doit cache fd_client (buf :: rio) stack net =
      some (cache, [io_event.lookup (doit_c_uri uri stack.hostname stack.filename),
        io_event.written fd_client ((cache i).cache_word.take MAX_OBJECT_SIZE)]) := by
  have hlen : buf.length ≠ 0 := fun e => hbuf (List.length_eq_zero.mp e)
  obtain ⟨c1, h1, h2, h3⟩ := rd_enter_of_unlocked (hu i)
  have hne : ((i.val : Int)) ≠ -1 := by omega
  have hb : 0 ≤ (i.val : Int) ∧ (i.val : Int).toNat < COUNT := by
    constructor
    · omega
    · simp
  have hi : (⟨(i.val : Int).toNat, hb.2⟩ : Fin COUNT) = i := by
    apply Fin.ext; simp
  unfold doit
  simp only [hlen, if_false, htok]
  rw [if_neg hcond]
  simp only [hfind, hne, ne_eq, not_false_eq_true, if_true]
  rw [dif_pos hb]
  simp only [hi, h1, Function.update_same, h2, h3, Function.update_idem,
    Function.update_eq_self]

/-- The request line is accepted and the lookup misses: lines 283-317. -/
theorem doit_miss (cache : Cache) (fd_client : Int) (buf : List Char)
    (rio : List (List Char)) (stack : doit_stack)
    (net : List Char → List Char → Int × List (List Char))
    (method uri version : List Char) (hbuf : buf ≠ [])
    (htok : sscanf_s_s_s (c_string buf) stack.method stack.uri stack.version =
      (method, uri, version))
    (hcond : ¬ (strcasecmp method "GET".toList ≠ 0 ∨ (strstr uri "https".toList).isSome))
    (hfind : cache_find cache (doit_c_uri uri stack.hostname stack.filename) =
      some (-1, cache)) :
    doit cache fd_client (buf :: rio) stack net =
      if (net (parse_uri uri stack.hostname stack.filename).1
          (sprintf_d (parse_uri uri stack.hostname stack.filename).2.2)).1 < 0 then
        some (cache, [io_event.lookup (doit_c_uri uri stack.hostname stack.filename),
          io_event.dial (parse_uri uri stack.hostname stack.filename).1
            (sprintf_d (parse_uri uri stack.hostname stack.filename).2.2)] ++
          clienterror
            (net (parse_uri uri stack.hostname stack.filename).1
              (sprintf_d (parse_uri uri stack.hostname stack.filename).2.2)).1
            method "404".toList "Not Implemented".toList
            "Tiny does not implement this method".toList)
      else
        match cache_cache cache (doit_c_uri uri stack.hostname stack.filename)
          (doit_copy_loop fd_client
            (net (parse_uri uri stack.hostname stack.filename).1
              (sprintf_d (parse_uri uri stack.hostname stack.filename).2.2)).2
            stack.cachebuf 0 []).1 with
        | none => none
        | some cache2 =>
          some (cache2,
            [io_event.lookup (doit_c_uri uri stack.hostname stack.filename),
              io_event.dial (parse_uri uri stack.hostname stack.filename).1
                (sprintf_d (parse_uri uri stack.hostname stack.filename).2.2),
              io_event.written
                (net (parse_uri uri stack.hostname stack.filename).1
                  (sprintf_d (parse_uri uri stack.hostname stack.filename).2.2)).1
                (build_header rio (parse_uri uri stack.hostname stack.filename).1
                  (parse_uri uri stack.hostname stack.filename).2.1
                  (sprintf_d (parse_uri uri stack.hostname stack.filename).2.2))] ++
            forwarded fd_client
              (net (parse_uri uri stack.hostname stack.filename).1
                (sprintf_d (parse_uri uri stack.hostname stack.filename).2.2)).2 ++
            [io_event.stored (doit_c_uri uri stack.hostname stack.filename),
              io_event.closed
                (net (parse_uri uri stack.hostname stack.filename).1
                  (sprintf_d (parse_uri uri stack.hostname stack.filename).2.2)).1]) := by
  have hlen : buf.length ≠ 0 := fun e => hbuf (List.length_eq_zero.mp e)
  have hsz := doit_copy_loop_size fd_client
    (net (parse_uri uri stack.hostname stack.filename).1
      (sprintf_d (parse_uri uri stack.hostname stack.filename).2.2)).2
    stack.cachebuf 0 [] (Nat.zero_le _)
  have hev := doit_copy_loop_events fd_client
    (net (parse_uri uri stack.hostname stack.filename).1
      (sprintf_d (parse_uri uri stack.hostname stack.filename).2.2)).2
    stack.cachebuf 0 []
  unfold doit
  simp only [hlen, if_false, htok]
  rw [if_neg hcond]
  simp only [hfind, ne_eq, not_true_eq_false, if_false]
  split_ifs with hfd
  · rfl
  · simp only [hsz, if_true, hev, List.nil_append]

theorem cache_find_of_no_hit {cache : Cache} (hu : unlocked cache) (url : List Char)
    (h : ∀ j : Fin COUNT, ¬ hit cache url j) : cache_find cache url = some (-1, cache) := by
  obtain ⟨r, hr, hs⟩ := cache_find_eq hu url
  rcases hs with ⟨hr1, -⟩ | ⟨k, -, hk, -⟩
  · rw [hr, hr1]
  · exact absurd hk (h k)

theorem cache_find_of_first_hit {cache : Cache} (hu : unlocked cache) (url : List Char)
    (i : Fin COUNT) (hi : hit cache url i) (hlow : ∀ j : Fin COUNT, j < i → ¬ hit cache url j) :
    cache_find cache url = some ((i.val : Int), cache) := by
  obtain ⟨r, hr, hs⟩ := cache_find_eq hu url
  rcases hs with ⟨-, hall⟩ | ⟨k, hk, hkhit, hklow⟩
  · exact absurd hi (hall i)
  · have : k = i := by
      rcases lt_trichotomy k i with h | h | h
      · exact absurd hkhit (hlow k h)
      · exact h
      · exact absurd hi (hklow i h)
    rw [hr, hk, this]

theorem strcasecmp_ne_zero_iff (method : List Char) :
    strcasecmp method "GET".toList ≠ 0 ↔ method.map Char.toLower ≠ "get".toList := by
  have : "GET".toList.map Char.toLower = "get".toList := by decide
  unfold strcasecmp
  rw [this]
  split_ifs with h
  · exact iff_of_false (fun h1 => h1 rfl) (fun h2 => h2 h)
  · exact iff_of_true (by decide) h

theorem doit_refuse_iff (method uri : List Char) :
    (strcasecmp method "GET".toList ≠ 0 ∨ (strstr uri "https".toList).isSome) ↔
      (method.map Char.toLower ≠ "get".toList ∨ "https".toList <:+: uri) := by
  rw [strcasecmp_ne_zero_iff, strstr_isSome_iff]

theorem doit_isSome_of_unlocked (cache : Cache) (fd_client : Int)
    (rio_client : List (List Char)) (stack : doit_stack)
    (net : List Char → List Char → Int × List (List Char)) (hu : unlocked cache) :
    (doit cache fd_client rio_client stack net).isSome := by
  cases rio_client with
  | nil => simp [doit]
  | cons buf rio =>
    by_cases hbuf : buf = []
    · simp [doit, hbuf]
    · obtain ⟨method, uri, version, htok⟩ :
          ∃ m u v, sscanf_s_s_s (c_string buf) stack.method stack.uri stack.version = (m, u, v) :=
        ⟨_, _, _, rfl⟩
      by_cases hcond : strcasecmp method "GET".toList ≠ 0 ∨ (strstr uri "https".toList).isSome
      · rw [doit_refused cache fd_client buf rio stack net method uri version hbuf htok hcond]
        rfl
      · obtain ⟨r, hr, hs⟩ := cache_find_eq hu (doit_c_uri uri stack.hostname stack.filename)
        rcases hs with ⟨hr1, -⟩ | ⟨k, hk, -, -⟩
        · rw [hr1] at hr
          rw [doit_miss cache fd_client buf rio stack net method uri version hbuf htok hcond hr]
          split_ifs
          · rfl
          · obtain ⟨c2, hc2⟩ := Option.isSome_iff_exists.mp (cache_cache_isSome hu
              (doit_c_uri uri stack.hostname stack.filename)
              (doit_copy_loop fd_client
                (net (parse_uri uri stack.hostname stack.filename).1
                  (sprintf_d (parse_uri uri stack.hostname stack.filename).2.2)).2
                stack.cachebuf 0 []).1)
            rw [hc2]
            rfl
        · rw [hk] at hr
          rw [doit_hit cache fd_client buf rio stack net method uri version hbuf htok hcond hu k hr]
          rfl

theorem doit_lookup_first (cache : Cache) (fd_client : Int) (buf : List Char)
    (rio : List (List Char)) (stack : doit_stack)
    (net : List Char → List Char → Int × List (List Char))
    (method uri version : List Char) (hbuf : buf ≠ [])
    (htok : sscanf_s_s_s (c_string buf) stack.method stack.uri stack.version =
      (method, uri, version))
    (hcond : ¬ (strcasecmp method "GET".toList ≠ 0 ∨ (strstr uri "https".toList).isSome))
    (cache2 : Cache) (events : List io_event)
    (h : doit cache fd_client (buf :: rio) stack net = some (cache2, events)) :
    events.head? = some (io_event.lookup (doit_c_uri uri stack.hostname stack.filename)) := by
  have hlen : buf.length ≠ 0 := fun e => hbuf (List.length_eq_zero.mp e)
  unfold doit at h
  simp only [hlen, if_false, htok] at h
  rw [if_neg hcond] at h
  split at h
  · simp at h
  · split_ifs at h
    all_goals repeat' split at h
    all_goals first
      | (simp only [Option.some.injEq, Prod.mk.injEq] at h
         rw [← h.2]
         rfl)
      | simp at h

/-- C14: for a request line that was read, `doit` answers with the 501 error page
on the client descriptor, and with nothing else (no `cache_find`, no
`Open_clientfd`, no `cache_cache`, the cache as before), exactly when the
method token differs from "GET" under case-insensitive comparison or the URI
token contains "https"; for every other request line whatever `doit` does
starts with `cache_find` on the key parsed from the URI, and `doit` returns
whenever no lock is held. -/
theorem C14_doit_validation (cache : Cache) (fd_client : Int) (buf : List Char)
    (rio : List (List Char)) (stack : doit_stack)
    (net : List Char → List Char → Int × List (List Char))
    (method uri version : List Char) (hbuf : buf ≠ [])
    (htok : sscanf_s_s_s (c_string buf) stack.method stack.uri stack.version =
      (method, uri, version)) :
    ((method.map Char.toLower ≠ "get".toList ∨ "https".toList <:+: uri) →
      doit cache fd_client (buf :: rio) stack net =
        some (cache, clienterror fd_client method "501".toList "Not Implemented".toList
          "Tiny does not implement this method".toList) ∧
      (clienterror fd_client method "501".toList "Not Implemented".toList
          "Tiny does not implement this method".toList).head? =
        some (io_event.written fd_client ("HTTP/1.0 501 Not Implemented".toList ++ crlf)) ∧
      ∀ e ∈ clienterror fd_client method "501".toList "Not Implemented".toList
          "Tiny does not implement this method".toList,
        ∃ bytes, e = io_event.written fd_client bytes) ∧
    (¬ (method.map Char.toLower ≠ "get".toList ∨ "https".toList <:+: uri) →
      (unlocked cache → (doit cache fd_client (buf :: rio) stack net).isSome) ∧
      ∀ (cache2 : Cache) (events : List io_event),
        doit cache fd_client (buf :: rio) stack net = some (cache2, events) →
        events.head? =
          some (io_event.lookup (doit_c_uri uri stack.hostname stack.filename))) := by
  rw [← doit_refuse_iff]
  constructor
  · intro hcond
    refine ⟨doit_refused cache fd_client buf rio stack net method uri version hbuf htok hcond,
      ?_, ?_⟩
    · simp [clienterror]
    · intro e he
      simp only [clienterror, List.mem_cons, List.mem_singleton, List.not_mem_nil,
        or_false] at he
      rcases he with rfl | rfl | rfl | rfl <;> exact ⟨_, rfl⟩
  · intro hcond
    exact ⟨fun hu => doit_isSome_of_unlocked cache fd_client (buf :: rio) stack net hu,
      fun cache2 events h =>
        doit_lookup_first cache fd_client buf rio stack net method uri version hbuf htok hcond
          cache2 events h⟩

theorem written_to_append (fd : Int) :
    ∀ ev1 ev2 : List io_event,
      written_to fd (ev1 ++ ev2) = written_to fd ev1 ++ written_to fd ev2 := by
  intro ev1
  induction ev1 with
  | nil => intro ev2; rfl
  | cons e ev1 ih =>
    intro ev2
    cases e with
    | written fd1 bytes =>
      simp only [List.cons_append, written_to]
      split_ifs
      · show bytes ++ written_to fd (ev1 ++ ev2) = _
        rw [ih ev2, List.append_assoc]
      · exact ih ev2
    | lookup url => exact ih ev2
    | dial hostname port => exact ih ev2
    | stored uri => exact ih ev2
    | closed fd1 => exact ih ev2

theorem written_to_head (fd fd_server : Int) (a b c d : List Char) (h : fd_server ≠ fd) :
    written_to fd [io_event.lookup a, io_event.dial b c, io_event.written fd_server d] = [] := by
  simp [written_to, h]

theorem written_to_tail (fd fd_server : Int) (a : List Char) :
    written_to fd [io_event.stored a, io_event.closed fd_server] = [] := rfl

theorem length_flatten_replicate (m : Nat) (c : Char) :
    ∀ n : Nat, (List.replicate n (List.replicate m c)).flatten.length = n * m := by
  intro n
  induction n with
  | zero => simp
  | succ n ih =>
    rw [List.replicate_succ, List.flatten_cons, List.length_append, ih, List.length_replicate]
    ring

theorem written_to_forwarded (fd : Int) :
    ∀ rio : List (List Char), (∀ l ∈ rio, l ≠ []) →
      written_to fd (forwarded fd rio) = rio.flatten := by
  intro rio
  induction rio with
  | nil => intro _; rfl
  | cons l rio ih =>
    intro h
    have hl : l ≠ [] := h l (by simp)
    have hf : forwarded fd (l :: rio) = io_event.written fd l :: forwarded fd rio := by
      simp [forwarded, List.takeWhile, hl]
    rw [hf, written_to, if_pos rfl, ih (fun x hx => h x (by simp [hx]))]
    simp

/-- A miss with a successful dial: `cache_cache` is called with what the copy
loop left in `cachebuf`, whatever the size of the response, and the next
`cache_find` of the key hits the line written. -/
theorem doit_miss_stores (cache : Cache) (fd_client : Int) (buf : List Char)
    (rio : List (List Char)) (stack : doit_stack)
    (net : List Char → List Char → Int × List (List Char))
    (method uri version : List Char) (hbuf : buf ≠ [])
    (htok : sscanf_s_s_s (c_string buf) stack.method stack.uri stack.version =
      (method, uri, version))
    (hcond : ¬ (strcasecmp method "GET".toList ≠ 0 ∨ (strstr uri "https".toList).isSome))
    (hu : unlocked cache)
    (hmiss : ∀ j : Fin COUNT, ¬ hit cache (doit_c_uri uri stack.hostname stack.filename) j)
    (fd_server : Int) (resp : List (List Char))
    (hnet : net (parse_uri uri stack.hostname stack.filename).1
      (sprintf_d (parse_uri uri stack.hostname stack.filename).2.2) = (fd_server, resp))
    (hfd : 0 ≤ fd_server) :
    ∃ v : Fin COUNT, cache_evict cache = some (v, cache) ∧
      doit cache fd_client (buf :: rio) stack net =
        some (admitted cache v (doit_c_uri uri stack.hostname stack.filename)
            (doit_copy_loop fd_client resp stack.cachebuf 0 []).1,
          [io_event.lookup (doit_c_uri uri stack.hostname stack.filename),
            io_event.dial (parse_uri uri stack.hostname stack.filename).1
              (sprintf_d (parse_uri uri stack.hostname stack.filename).2.2),
            io_event.written fd_server
              (build_header rio (parse_uri uri stack.hostname stack.filename).1
                (parse_uri uri stack.hostname stack.filename).2.1
                (sprintf_d (parse_uri uri stack.hostname stack.filename).2.2))] ++
          forwarded fd_client resp ++
          [io_event.stored (doit_c_uri uri stack.hostname stack.filename),
            io_event.closed fd_server]) ∧
      unlocked (admitted cache v (doit_c_uri uri stack.hostname stack.filename)
        (doit_copy_loop fd_client resp stack.cachebuf 0 []).1) ∧
      cache_find
          (admitted cache v (doit_c_uri uri stack.hostname stack.filename)
            (doit_copy_loop fd_client resp stack.cachebuf 0 []).1)
          (doit_c_uri uri stack.hostname stack.filename) =
        some ((v.val : Int),
          admitted cache v (doit_c_uri uri stack.hostname stack.filename)
            (doit_copy_loop fd_client resp stack.cachebuf 0 []).1) := by
  have hfind := cache_find_of_no_hit hu _ hmiss
  obtain ⟨c2, hc2⟩ := Option.isSome_iff_exists.mp (cache_cache_isSome hu
    (doit_c_uri uri stack.hostname stack.filename)
    (doit_copy_loop fd_client resp stack.cachebuf 0 []).1)
  obtain ⟨v, hv, hadm⟩ := cache_cache_eq_some hc2
  have hu2 := unlocked_admitted hu v (doit_c_uri uri stack.hostname stack.filename)
    (doit_copy_loop fd_client resp stack.cachebuf 0 []).1
  refine ⟨v, hv, ?_, hu2, ?_⟩
  · rw [doit_miss cache fd_client buf rio stack net method uri version hbuf htok hcond hfind,
      hnet]
    simp only
    rw [if_neg (by omega), hc2, hadm]
  · apply cache_find_of_first_hit hu2
    · unfold hit
      rw [admitted_victim]
      exact ⟨rfl, rfl⟩
    · intro j hj
      have hjv : j ≠ v := ne_of_lt hj
      unfold hit
      rw [admitted_other cache v _ _ hjv]
      intro h
      exact hmiss j (by simpa [hit, aged] using h)

/-- C15 fails on the code: for the response `big_response`, 106483 bytes and so
above `MAX_OBJECT_SIZE`, `doit` forwards every byte to the client and then
calls `cache_cache` all the same; the cache has changed and a later
`cache_find` of the key hits line 0.  In lines 304-312 `sizebuf` grows only while
it stays within `MAX_OBJECT_SIZE`, so the test of line 315 always holds. -/
theorem C15_oversize_response_is_stored :
    MAX_OBJECT_SIZE < big_response.flatten.length ∧
    ∃ (cache2 : Cache) (events : List io_event),
      doit (cache_init cache_blank) 4 [sample_request_line, crlf] blank_stack big_server =
        some (cache2, events) ∧
      written_to 4 events = big_response.flatten ∧
      io_event.stored (example_host ++ example_path) ∈ events ∧
      (cache2 ⟨0, by decide⟩).empty = 0 ∧
      (cache2 ⟨0, by decide⟩).cache_url = example_host ++ example_path ∧
      cache_find cache2 (example_host ++ example_path) = some (0, cache2) := by
  have htok : sscanf_s_s_s (c_string sample_request_line) blank_stack.method blank_stack.uri
      blank_stack.version =
      ("GET".toList, http_scheme ++ example_host ++ [':'] ++ example_port ++ example_path,
        "HTTP/1.1".toList) := by decide
  have hkey : doit_c_uri (http_scheme ++ example_host ++ [':'] ++ example_port ++ example_path)
      blank_stack.hostname blank_stack.filename = example_host ++ example_path := by decide
  have hcond : ¬ (strcasecmp "GET".toList "GET".toList ≠ 0 ∨
      (strstr (http_scheme ++ example_host ++ [':'] ++ example_port ++ example_path)
        "https".toList).isSome) := by decide
  have hu := unlocked_cache_init cache_blank
  have hmiss : ∀ j : Fin COUNT, ¬ hit (cache_init cache_blank)
      (doit_c_uri (http_scheme ++ example_host ++ [':'] ++ example_port ++ example_path)
        blank_stack.hostname blank_stack.filename) j := by
    intro j h
    have : (cache_init cache_blank j).empty = 0 := h.1
    simp [cache_init] at this
  obtain ⟨v, hv, hdoit, -, hfind⟩ := doit_miss_stores (cache_init cache_blank) 4
    sample_request_line [crlf] blank_stack big_server _ _ _ (by decide) htok hcond hu hmiss
    5 big_response rfl (by decide)
  have hv0 : v = ⟨0, by decide⟩ := by
    have := round_robin_evict (round_robin_init cache_blank)
    rw [hv] at this
    simp only [Option.some.injEq, Prod.mk.injEq, and_true] at this
    rw [this]
    rfl
  rw [hkey] at hdoit hfind
  subst hv0
  refine ⟨by rw [big_response, length_flatten_replicate]; decide, _, _, hdoit, ?_, ?_, ?_, ?_,
    ?_⟩
  · rw [written_to_append, written_to_append, written_to_head 4 5 _ _ _ _ (by decide),
      written_to_tail, written_to_forwarded 4 big_response (by
        intro l hl
        rw [big_response, List.mem_replicate] at hl
        rw [hl.2]
        exact List.ne_nil_of_length_pos (by rw [List.length_replicate]; decide))]
    rw [List.nil_append, List.append_nil]
  · simp
  · rw [admitted_victim]
  · rw [admitted_victim]
  · exact hfind

set_option maxRecDepth 20000 in
/-- C16 fails on the code: for the request "GET http://nope.invalid/ HTTP/1.1" and an
upstream whose dial returns -1, `doit` looks the key up, dials, and then makes
the four writes of the 404 page on descriptor -1, the value of `fd_server`;
nothing is written to the client descriptor 4.  Line 290 passes `fd_server` to
`clienterror` where line 253 passes `fd_client`. -/
theorem C16_dial_failure_page_goes_to_fd_server :
    (doit (cache_init cache_blank) 4 [nope_request_line, crlf] blank_stack no_server).map
        Prod.snd =
      some ([io_event.lookup "nope.invalid/".toList,
          io_event.dial "nope.invalid/".toList "80".toList] ++
        clienterror (-1) "GET".toList "404".toList "Not Implemented".toList
          "Tiny does not implement this method".toList) ∧
    written_to 4 ([io_event.lookup "nope.invalid/".toList,
          io_event.dial "nope.invalid/".toList "80".toList] ++
        clienterror (-1) "GET".toList "404".toList "Not Implemented".toList
          "Tiny does not implement this method".toList) = [] ∧
    (clienterror (-1) "GET".toList "404".toList "Not Implemented".toList
          "Tiny does not implement this method".toList).head? =
      some (io_event.written (-1) ("HTTP/1.0 404 Not Implemented".toList ++ crlf)) := by
  refine ⟨by decide, by decide, by decide⟩

/-- Witness of C14 on "GET http://example.com:8080/index.html HTTP/1.1". -/
theorem C14_doit_validation_witness :
    sample_request_line ≠ [] ∧
    sscanf_s_s_s (c_string sample_request_line) blank_stack.method blank_stack.uri
        blank_stack.version =
      ("GET".toList, http_scheme ++ example_host ++ [':'] ++ example_port ++ example_path,
        "HTTP/1.1".toList) ∧
    ((("GET".toList.map Char.toLower ≠ "get".toList ∨ "https".toList <:+:
        (http_scheme ++ example_host ++ [':'] ++ example_port ++ example_path)) →
      doit (cache_init cache_blank) 4 [sample_request_line, crlf] blank_stack no_server =
        some (cache_init cache_blank,
          clienterror 4 "GET".toList "501".toList "Not Implemented".toList
            "Tiny does not implement this method".toList) ∧
      (clienterror 4 "GET".toList "501".toList "Not Implemented".toList
          "Tiny does not implement this method".toList).head? =
        some (io_event.written 4 ("HTTP/1.0 501 Not Implemented".toList ++ crlf)) ∧
      ∀ e ∈ clienterror 4 "GET".toList "501".toList "Not Implemented".toList
          "Tiny does not implement this method".toList,
        ∃ bytes, e = io_event.written 4 bytes) ∧
    (¬ ("GET".toList.map Char.toLower ≠ "get".toList ∨ "https".toList <:+:
        (http_scheme ++ example_host ++ [':'] ++ example_port ++ example_path)) →
      (unlocked (cache_init cache_blank) →
        (doit (cache_init cache_blank) 4 [sample_request_line, crlf] blank_stack
          no_server).isSome) ∧
      ∀ (cache2 : Cache) (events : List io_event),
        doit (cache_init cache_blank) 4 [sample_request_line, crlf] blank_stack no_server =
          some (cache2, events) →
        events.head? =
          some (io_event.lookup
            (doit_c_uri (http_scheme ++ example_host ++ [':'] ++ example_port ++ example_path)
              blank_stack.hostname blank_stack.filename)))) :=
  ⟨by decide, by decide,
    C14_doit_validation (cache_init cache_blank) 4 sample_request_line [crlf] blank_stack
      no_server "GET".toList
      (http_scheme ++ example_host ++ [':'] ++ example_port ++ example_path) "HTTP/1.1".toList
      (by decide) (by decide)⟩

/-- C18, as stated, fails: `cache_find` of the key "c" on `cache_full_example` returns
the hit index 2, and on return `readcnt` of line 2 is 0 and `mutex_wt` is 1, as
before the call: the reader lock is not held. -/
theorem C18_counterexample :
    (cache_full_example ⟨2, by decide⟩).readcnt = 0 ∧
    (cache_full_example ⟨2, by decide⟩).mutex_wt = 1 ∧
    (cache_find cache_full_example ['c']).map
        (fun r => (r.1, (r.2 ⟨2, by decide⟩).readcnt, (r.2 ⟨2, by decide⟩).mutex_wt)) =
      some (2, 0, 1) := by
  refine ⟨by decide, by decide, by decide⟩

/-- C18 (amended): whatever `cache_find` returns, a hit index or -1, on return
`readcnt`, `mutex_wt`, `mutex_rdcnt` and `mutex_time` of every line, the line that
matched included, are back at their values from before the call: the reader
lock of a hit line is released before `return i` (lines 88-92).  So the return
of a hit index keeps no `cache_cache` from running: called on the returned
cache, with no lock held before the lookup, `cache_cache` returns.  The lookup
itself returns whenever no lock is held. -/
theorem C18_cache_find_releases_locks (cache : Cache) (url : List Char) :
    (unlocked cache → (cache_find cache url).isSome) ∧
    (∀ (r : Int) (cache2 : Cache), cache_find cache url = some (r, cache2) →
      ∀ j : Fin COUNT,
        (cache2 j).readcnt = (cache j).readcnt ∧ (cache2 j).mutex_wt = (cache j).mutex_wt ∧
        (cache2 j).mutex_rdcnt = (cache j).mutex_rdcnt ∧
        (cache2 j).mutex_time = (cache j).mutex_time) ∧
    (unlocked cache → ∀ (r : Int) (cache2 : Cache), cache_find cache url = some (r, cache2) →
      ∀ uri buf : List Char, (cache_cache cache2 uri buf).isSome) := by
  refine ⟨fun hu => cache_find_loop_isSome url cache hu COUNT 0, ?_, ?_⟩
  · intro r cache2 h j
    have := (cache_find_loop_spec url cache COUNT 0 r cache2 (by simp) h).1
    rw [this]
    exact ⟨rfl, rfl, rfl, rfl⟩
  · intro hu r cache2 h uri buf
    have := (cache_find_loop_spec url cache COUNT 0 r cache2 (by simp) h).1
    rw [this]
    exact cache_cache_isSome hu uri buf

theorem run_ops_round_robin (ops : List cache_op) :
    ∀ (hist : List (List Char × List Char)) (cache : Cache), round_robin hist cache →
      ∃ (cache2 : Cache) (victims : List (Fin COUNT)) (hist2 : List (List Char × List Char)),
        run_ops cache ops = some (cache2, victims) ∧
        round_robin hist2 cache2 ∧
        hist2.length = hist.length + victims.length ∧
        victims.length = (ops.filter cache_op.is_store).length ∧
        ∀ (m : Nat) (v : Fin COUNT), victims[m]? = some v →
          v.val = (hist.length + m) % COUNT := by
  induction ops with
  | nil =>
    intro hist cache h
    exact ⟨cache, [], hist, rfl, h, rfl, rfl, fun m v hv => by simp at hv⟩
  | cons op ops ih =>
    intro hist cache h
    cases op with
    | find url =>
      obtain ⟨r, hr, -⟩ := cache_find_eq h.1 url
      obtain ⟨c2, vs, h2, hrun, hrr, hlen, hcount, hidx⟩ := ih hist cache h
      refine ⟨c2, vs, h2, ?_, hrr, hlen, ?_, hidx⟩
      · rw [run_ops, hr]
        exact hrun
      · simpa [cache_op.is_store] using hcount
    | store uri buf =>
      have hev := round_robin_evict h
      have hcc := round_robin_cache_cache h uri buf
      obtain ⟨c2, vs, h2, hrun, hrr, hlen, hcount, hidx⟩ :=
        ih (hist ++ [(uri, buf)]) _ (round_robin_admitted h uri buf)
      refine ⟨c2, ⟨hist.length % COUNT, Nat.mod_lt _ (by decide)⟩ :: vs, h2, ?_, hrr, ?_, ?_, ?_⟩
      · rw [run_ops, hev]
        simp only [hcc, hrun]
      · simp only [List.length_append, List.length_singleton, List.length_cons,
          List.length_nil] at hlen ⊢
        omega
      · simp [cache_op.is_store, hcount]
      · intro m v hv
        cases m with
        | zero =>
          simp only [List.getElem?_cons_zero, Option.some.injEq] at hv
          rw [← hv]
          rfl
        | succ m =>
          simp only [List.getElem?_cons_succ] at hv
          have := hidx m v hv
          simp only [List.length_append, List.length_singleton] at this
          rw [this]
          congr 1
          omega

/-- C19: `cache_find` leaves the timetag, empty flag, key and blob of every line
as they were; and for every serial sequence of `cache_find` and `cache_cache`
calls from `cache_init` the calls all return and the line overwritten by the
admission number m + 1 is m mod `COUNT`, whatever lookups lie in between; so
the admission that follows another one by `COUNT` admissions overwrites the
same line. -/
theorem C19_lookups_do_not_influence_replacement (c0 : Cache) (ops : List cache_op) :
    (∀ (cache : Cache) (url : List Char) (r : Int) (cache2 : Cache),
      cache_find cache url = some (r, cache2) →
      ∀ j : Fin COUNT,
        (cache2 j).timetag = (cache j).timetag ∧ (cache2 j).empty = (cache j).empty ∧
        (cache2 j).cache_url = (cache j).cache_url ∧
        (cache2 j).cache_word = (cache j).cache_word) ∧
    ∃ (cache2 : Cache) (victims : List (Fin COUNT)),
      run_ops (cache_init c0) ops = some (cache2, victims) ∧
      victims.length = (ops.filter cache_op.is_store).length ∧
      (∀ (m : Nat) (v : Fin COUNT), victims[m]? = some v → v.val = m % COUNT) ∧
      ∀ (m : Nat) (v w : Fin COUNT),
        victims[m]? = some v → victims[m + COUNT]? = some w → v = w := by
  constructor
  · intro cache url r cache2 h j
    rw [(cache_find_loop_spec url cache COUNT 0 r cache2 (by simp) h).1]
    exact ⟨rfl, rfl, rfl, rfl⟩
  · obtain ⟨cache2, victims, hist2, hrun, -, -, hcount, hidx⟩ :=
      run_ops_round_robin ops [] _ (round_robin_init c0)
    have hidx2 : ∀ (m : Nat) (v : Fin COUNT), victims[m]? = some v → v.val = m % COUNT := by
      intro m v hv
      have := hidx m v hv
      simpa using this
    refine ⟨cache2, victims, hrun, hcount, hidx2, ?_⟩
    intro m v w hv hw
    apply Fin.ext
    rw [hidx2 m v hv, hidx2 (m + COUNT) w hw]
    simp

/-- C20: every serial sequence of `cache_find` and `cache_cache` calls from
`cache_init` returns, and in the cache it leaves, with k the smaller of the
number of admissions and `COUNT`: the non-empty lines are exactly the lines
0 .. k-1; every other line has `empty = 1` and timetag 0; the timetags of the
non-empty lines are pairwise distinct and are exactly the values
`COUNT`-k+1 .. `COUNT`, hence between 1 and `COUNT`; and the line written by the
last admission is the only line with timetag `COUNT`. -/
theorem C20_reachable_invariant (c0 : Cache) (ops : List cache_op) :
    ∃ (cache : Cache) (victims : List (Fin COUNT)),
      run_ops (cache_init c0) ops = some (cache, victims) ∧
      min victims.length COUNT ≤ COUNT ∧
      (∀ j : Fin COUNT, (cache j).empty = 0 ↔ j.val < min victims.length COUNT) ∧
      (∀ j : Fin COUNT, min victims.length COUNT ≤ j.val →
        (cache j).empty = 1 ∧ (cache j).timetag = 0) ∧
      (∀ j : Fin COUNT, j.val < min victims.length COUNT →
        (COUNT : Int) - (min victims.length COUNT : Nat) + 1 ≤ (cache j).timetag ∧
        (cache j).timetag ≤ (COUNT : Int) ∧ 1 ≤ (cache j).timetag) ∧
      (∀ i j : Fin COUNT, i.val < min victims.length COUNT →
        j.val < min victims.length COUNT → (cache i).timetag = (cache j).timetag → i = j) ∧
      (∀ t : Int, (COUNT : Int) - (min victims.length COUNT : Nat) + 1 ≤ t →
        t ≤ (COUNT : Int) →
        ∃ j : Fin COUNT, j.val < min victims.length COUNT ∧ (cache j).timetag = t) ∧
      (∀ v : Fin COUNT, victims.getLast? = some v →
        (cache v).timetag = (COUNT : Int) ∧
        ∀ j : Fin COUNT, (cache j).timetag = (COUNT : Int) → j = v) := by
  obtain ⟨cache, victims, hist, hrun, hrr, hlen, -, hidx⟩ :=
    run_ops_round_robin ops [] _ (round_robin_init c0)
  simp only [List.length_nil, Nat.zero_add] at hlen hidx
  obtain ⟨-, hl⟩ := hrr
  rw [hlen] at hl
  refine ⟨cache, victims, hrun, Nat.min_le_right _ _, ?_, ?_, ?_, ?_, ?_, ?_⟩
  · intro j
    have hj := j.isLt
    constructor
    · intro he
      by_contra hlt
      have := ((hl j).2 (by simp only [COUNT] at *; omega)).1
      omega
    · intro hlt
      exact ((hl j).1 (by simp only [COUNT] at *; omega)).1
  · intro j hge
    have hj := j.isLt
    exact (hl j).2 (by simp only [COUNT] at *; omega)
  · intro j hlt
    have hj := j.isLt
    have ht := ((hl j).1 (by simp only [COUNT] at *; omega)).2.1
    rw [ht]
    simp only [COUNT] at *
    omega
  · intro i j hi hj hEq
    have hi2 := i.isLt
    have hj2 := j.isLt
    have hti := ((hl i).1 (by simp only [COUNT] at *; omega)).2.1
    have htj := ((hl j).1 (by simp only [COUNT] at *; omega)).2.1
    rw [hti, htj] at hEq
    apply Fin.ext
    simp only [COUNT] at *
    omega
  · intro t ht1 ht2
    have hpos : 0 < victims.length := by
      by_contra h0
      simp only [COUNT] at *
      omega
    refine ⟨⟨(victims.length - 1 - ((COUNT : Int) - t).toNat) % COUNT,
      Nat.mod_lt _ (by decide)⟩, ?_, ?_⟩
    · simp only [COUNT] at *
      omega
    · have hlt : (victims.length - 1 - ((COUNT : Int) - t).toNat) % COUNT < victims.length := by
        simp only [COUNT] at *
        omega
      rw [((hl _).1 hlt).2.1]
      simp only [COUNT] at *
      omega
  · intro v hv
    have hpos : 0 < victims.length := by
      cases victims with
      | nil => simp at hv
      | cons a l => simp
    rw [List.getLast?_eq_getElem?] at hv
    have hvv := hidx _ v hv
    have hv2 := v.isLt
    have hvlt : v.val < victims.length := by
      simp only [COUNT] at *
      omega
    constructor
    · rw [((hl v).1 hvlt).2.1]
      simp only [COUNT] at *
      omega
    · intro j hj
      have hj2 := j.isLt
      have hjlt : j.val < victims.length := by
        by_contra hge
        have := ((hl j).2 (by omega)).2
        rw [this] at hj
        simp [COUNT] at hj
      rw [((hl j).1 hjlt).2.1] at hj
      apply Fin.ext
      simp only [COUNT] at *
      omega

end Proxy
